import Mathlib

/-!
# The script interpreter of `cmd/script_update.c`

A shallow embedding of the line tokenizer `script_next_line`, of the driver
`do_script` and of the three fetchers, followed by the properties proved about
them.

* The script buffer is a `List Nat` of byte values; a `char *` into it is an index.
* Every access `line_buf[0]` is an `Option`-valued lookup: an index outside the
  buffer ends the run with the outcome `fault`.
* The loops carry a fuel argument; the callers pass a fuel that is proved to be
  enough, so the outcome `timeout` is never produced by `script_next_line`.
-/

namespace ScriptUpdate

/-! ## Constants and macros (lines 20-26) -/

/-- The macro `#define SCRIPT_FILE_MAX_SIZE (12 * 1024)` -/
def SCRIPT_FILE_MAX_SIZE : Nat := 12 * 1024

/-- The macro `#define SCRIPT_FILE_COMMENT '#'` -/
def SCRIPT_FILE_COMMENT : Nat := 35

/-- The macro `#define SCRIPT_FILE_END '%'` -/
def SCRIPT_FILE_END : Nat := 37

/-- The macro `#define IS_COMMENT(x) (SCRIPT_FILE_COMMENT == (x))` -/
def IS_COMMENT (x : Nat) : Bool := SCRIPT_FILE_COMMENT == x

/-- The macro `#define IS_FILE_END(x) (SCRIPT_FILE_END == (x))` -/
def IS_FILE_END (x : Nat) : Bool := SCRIPT_FILE_END == x

/-- The macro `#define IS_LINE_END(x) ('\r' == (x) || '\n' == (x))` -/
def IS_LINE_END (x : Nat) : Bool := 13 == x || 10 == x

/-- The macro `#define MAX_LINE_SIZE 8000` -/
def MAX_LINE_SIZE : Nat := 8000

/-! ## Buffer accesses -/

/-- The assignment `line_buf[0] = v` with `line_buf` at index `p`: `none` when the
index lies outside the buffer. -/
def write (buf : List Nat) (p v : Nat) : Option (List Nat) :=
  if p < buf.length then some (buf.set p v) else none

/-- The C string that starts at index `p`: the bytes before the first NUL. -/
def c_string (buf : List Nat) (p : Nat) : List Nat :=
  (buf.drop p).takeWhile (fun b => b != 0)

/-! ## The tokenizer `script_next_line` (lines 28-72) -/

/-- Result of the scanning loop. -/
inductive Scan where
  /-- the loop was left with `line_buf` at index `p` and counter `i` -/
  | stop (p i : Nat)
  /-- the byte `line_buf[0]` was read outside the buffer -/
  | fault
  /-- the fuel ran out -/
  | timeout
  deriving DecidableEq

/-- The loop of lines 41-42 and 59-60,
`for (i = 0; !IS_LINE_END(line_buf[0]) && i <= MAX_LINE_SIZE; i++) line_buf++;`,
entered with `line_buf` at index `p` and counter `i`. The byte is read before the
counter is tested, as `&&` evaluates its left operand first. -/
def scan_loop (buf : List Nat) : Nat → Nat → Nat → Scan
  | 0, _, _ => .timeout
  | fuel + 1, p, i =>
    match buf[p]? with
    | none => .fault
    | some c =>
      if !IS_LINE_END c && decide (i ≤ MAX_LINE_SIZE) then
        scan_loop buf fuel (p + 1) (i + 1)
      else .stop p i

/-- Result of the skip loop. -/
inductive Skip where
  /-- a `break` left the loop with buffer `buf` and `line_buf` at index `p` -/
  | stop (buf : List Nat) (p : Nat)
  /-- an access fell outside the buffer -/
  | fault
  /-- the fuel ran out -/
  | timeout
  deriving DecidableEq

/-- The `while (1)` loop of lines 35-52, entered with `line_buf` at index `p`:
line terminators are stepped over, a comment is scanned to its terminator, and a
comment that overflows `MAX_LINE_SIZE` has the byte under `line_buf` overwritten
with `SCRIPT_FILE_END` before the `break`. -/
def skip_loop : Nat → List Nat → Nat → Skip
  | 0, _, _ => .timeout
  | fuel + 1, buf, p =>
    match buf[p]? with
    | none => .fault
    | some c =>
      if IS_LINE_END c then skip_loop fuel buf (p + 1)
      else if IS_COMMENT c then
        match scan_loop buf (MAX_LINE_SIZE + 2) p 0 with
        | .stop q i =>
          if i > MAX_LINE_SIZE then
            match write buf q SCRIPT_FILE_END with
            | some buf1 => .stop buf1 q
            | none => .fault
          else skip_loop fuel buf q
        | .fault => .fault
        | .timeout => .timeout
      else .stop buf p

/-- Result of one call of `script_next_line`. In every constructor `buf` is the
buffer after the call and `cur` the value of `*line_buf_ptr` after the call. -/
inductive Outcome where
  /-- a line is returned: `next_line` is the index the returned pointer refers to -/
  | line (buf : List Nat) (cur : Nat) (next_line : Nat)
  /-- the result `NULL` of line 56: the byte at index `pos` is `SCRIPT_FILE_END` -/
  | file_end (buf : List Nat) (cur : Nat) (pos : Nat)
  /-- the result `NULL` of line 63: the line that starts at `start` is too long -/
  | too_long (buf : List Nat) (cur : Nat) (start : Nat)
  /-- an access fell outside the buffer -/
  | fault
  /-- the fuel ran out -/
  | timeout
  deriving DecidableEq

/-- The function `script_next_line`, with `*line_buf_ptr` at index `cur`. -/
def script_next_line (buf : List Nat) (cur : Nat) : Outcome :=
  match skip_loop (buf.length + 1) buf cur with
  | .fault => .fault
  | .timeout => .timeout
  | .stop buf1 p =>
    match buf1[p]? with
    | none => .fault
    | some c =>
      if IS_FILE_END c then .file_end buf1 cur p
      else
        match scan_loop buf1 (MAX_LINE_SIZE + 2) p 0 with
        | .fault => .fault
        | .timeout => .timeout
        | .stop q i =>
          if i > MAX_LINE_SIZE then .too_long buf1 cur p
          else
            match write buf1 q 0 with
            | some buf2 => .line buf2 (q + 1) p
            | none => .fault

/-- The outcome is a returned `NULL`: no more lines. -/
def Outcome.is_null : Outcome → Bool
  | .file_end _ _ _ => true
  | .too_long _ _ _ => true
  | _ => false

/-- Repeated calls of `script_next_line`, as made by the loop of `do_script`
when every command succeeds: the lines returned, as C strings, and the outcome
of the last call. -/
def tokenize_loop : Nat → List Nat → Nat → List (List Nat) × Outcome
  | 0, _, _ => ([], .timeout)
  | fuel + 1, buf, cur =>
    match script_next_line buf cur with
    | .line buf1 cur1 next_line =>
      (c_string buf1 next_line :: (tokenize_loop fuel buf1 cur1).1,
        (tokenize_loop fuel buf1 cur1).2)
    | o => ([], o)

/-- Tokenization of `buf` from cursor `cur`. A returned line moves the cursor
forward, so `buf.length + 1` calls are enough. -/
def tokenize (buf : List Nat) (cur : Nat) : List (List Nat) × Outcome :=
  tokenize_loop (buf.length + 1) buf cur

/-! ## The driver `do_script` (lines 74-107) -/

/-- Modelled from the spec: the result code for success, zero; it is
`CMD_RET_SUCCESS` of `enum command_ret_t`, declared in include/command.h. -/
def CMD_RET_SUCCESS : Int := 0

/-- Modelled from the spec: the fixed failure code; it is `CMD_RET_FAILURE` of
`enum command_ret_t`, declared in include/command.h, where its value is 1. -/
def CMD_RET_FAILURE : Int := 1

/-- Modelled from the spec: the usage error; it is `CMD_RET_USAGE` of
`enum command_ret_t`, declared in include/command.h, where its value is -1. -/
def CMD_RET_USAGE : Int := -1

/-- How a run of `do_script` ended. -/
inductive Status where
  /-- the statement `return ret;` was reached -/
  | returned (ret : Int)
  /-- an access fell outside the scratch buffer -/
  | fault
  /-- the fuel ran out -/
  | timeout
  deriving DecidableEq

/-- What a run of `do_script` did: how it ended, the lines passed to
`run_command` in order, and whether `calloc` was called. -/
structure Run where
  status : Status
  submitted : List (List Nat)
  calloc_called : Bool
  deriving DecidableEq

/-- The loop of lines 98-103, entered with `script` at index `cur` and the
current value of `ret`: the status and the lines submitted. -/
def script_loop (run_command : List Nat → Int) :
    Nat → List Nat → Nat → Int → Status × List (List Nat)
  | 0, _, _, _ => (.timeout, [])
  | fuel + 1, buf, cur, ret =>
    match script_next_line buf cur with
    | .line buf1 cur1 next_line =>
      if run_command (c_string buf1 next_line) ≠ 0 then
        (.returned (run_command (c_string buf1 next_line)), [c_string buf1 next_line])
      else
        ((script_loop run_command fuel buf1 cur1
            (run_command (c_string buf1 next_line))).1,
          c_string buf1 next_line ::
            (script_loop run_command fuel buf1 cur1
              (run_command (c_string buf1 next_line))).2)
    | .file_end _ _ _ => (.returned ret, [])
    | .too_long _ _ _ => (.returned ret, [])
    | .fault => (.fault, [])
    | .timeout => (.timeout, [])

/-- The `memcpy(buf, (char *)addr, SCRIPT_FILE_MAX_SIZE)` of line 97 into the
buffer obtained from `calloc`: the `SCRIPT_FILE_MAX_SIZE` bytes of the memory
`mem` that start at `addr`. -/
def memcpy (mem : Nat → Nat) (addr : Nat) : List Nat :=
  (List.range SCRIPT_FILE_MAX_SIZE).map (fun j => mem (addr + j))

/-- The function `do_script`. The parameters stand for what lies outside the
file: `fit_signature` for `CONFIG_FIT_SIGNATURE` being defined, `simple_strtoul`
for the base-16 parse of the argument, `calloc_ok` for `calloc` returning a
buffer, `mem` for the memory read by `memcpy`, and `run_command` for the command
executor. `argv i = none` stands for a null `argv[i]`. -/
def do_script (fit_signature : Bool) (simple_strtoul : List Nat → Nat)
    (calloc_ok : Bool) (mem : Nat → Nat) (run_command : List Nat → Int)
    (argc : Int) (argv : Nat → Option (List Nat)) : Run :=
  if fit_signature then ⟨.returned CMD_RET_FAILURE, [], false⟩
  else
    match (if argc ≠ 2 then none else argv 1) with
    | none => ⟨.returned CMD_RET_USAGE, [], false⟩
    | some arg =>
      if simple_strtoul arg = 0 then ⟨.returned CMD_RET_USAGE, [], false⟩
      else if !calloc_ok then ⟨.returned CMD_RET_FAILURE, [], true⟩
      else
        ⟨(script_loop run_command (SCRIPT_FILE_MAX_SIZE + 1)
              (memcpy mem (simple_strtoul arg)) 0 CMD_RET_SUCCESS).1,
          (script_loop run_command (SCRIPT_FILE_MAX_SIZE + 1)
              (memcpy mem (simple_strtoul arg)) 0 CMD_RET_SUCCESS).2,
          true⟩

/-! ## Relations and sample inputs used in the proofs -/

/-- The scanning loop entered at index `p` with counter `i` is left at index `q`
with counter `j`: the bytes before `q` are inside the buffer and are no line
terminators, and the byte at `q` is a line terminator or the counter has passed
`MAX_LINE_SIZE`. -/
def ScanStops (buf : List Nat) (p i q j : Nat) : Prop :=
  p ≤ q ∧ q + i = p + j ∧ (p < q → j ≤ MAX_LINE_SIZE + 1) ∧
  (∀ x, p ≤ x → x < q → ∃ c, buf[x]? = some c ∧ IS_LINE_END c = false) ∧
  ∃ c, buf[q]? = some c ∧ (IS_LINE_END c = true ∨ MAX_LINE_SIZE < j)

/-- The skip loop entered at index `p` is left at index `k`; the flag tells
whether it is left by the `break` of line 47, after a comment overflowed and the
byte at `k` was overwritten with `SCRIPT_FILE_END`. -/
inductive SkipsTo (buf : List Nat) : Nat → Nat → Bool → Prop where
  | stop {p c : Nat} : buf[p]? = some c → IS_LINE_END c = false → IS_COMMENT c = false →
      SkipsTo buf p p false
  | line_end {p k c : Nat} {o : Bool} : buf[p]? = some c → IS_LINE_END c = true →
      SkipsTo buf (p + 1) k o → SkipsTo buf p k o
  | comment {p q i k c : Nat} {o : Bool} : buf[p]? = some c → IS_LINE_END c = false →
      IS_COMMENT c = true → ScanStops buf p 0 q i → i ≤ MAX_LINE_SIZE →
      SkipsTo buf q k o → SkipsTo buf p k o
  | overflow {p q i c : Nat} : buf[p]? = some c → IS_LINE_END c = false →
      IS_COMMENT c = true → ScanStops buf p 0 q i → MAX_LINE_SIZE < i →
      SkipsTo buf p q true

/-- The buffer left by the skip loop. -/
def skip_buf (buf : List Nat) (k : Nat) (o : Bool) : List Nat :=
  if o = true then buf.set k SCRIPT_FILE_END else buf

/-- A memory that holds the script `sm` at address `base`, with end markers
everywhere else. -/
def mem_of (sm : List Nat) (base : Nat) : Nat → Nat :=
  fun a => (sm[a - base]?).getD SCRIPT_FILE_END

/-- A buffer whose first line has 8002 bytes, followed by the line `A` and the
end marker. -/
def long_line_buf : List Nat := List.replicate 8001 65 ++ [66, 10, 65, 10, 37]

/-- The bytes of a blank piece of a script: a lone line terminator `t`, or a
comment line made of the comment marker, the bytes `body` and the line
terminator `t`. -/
def blank_bytes : Option (List Nat) × Nat → List Nat
  | (none, t) => [t]
  | (some body, t) => SCRIPT_FILE_COMMENT :: (body ++ [t])

/-- The blank piece is well formed: `t` is a line terminator and `body` holds
none. -/
def blank_ok : Option (List Nat) × Nat → Bool
  | (none, t) => IS_LINE_END t
  | (some body, t) => IS_LINE_END t && body.all (fun b => !IS_LINE_END b)

/-- The buffer made of the blank pieces followed by the end marker. -/
def blank_script : List (Option (List Nat) × Nat) → List Nat
  | [] => [SCRIPT_FILE_END]
  | p :: ps => blank_bytes p ++ blank_script ps

/-- A well-formed script line: not empty, at most `MAX_LINE_SIZE` bytes, without
line terminator and without NUL byte, and not starting with the end marker. -/
def line_ok (l : List Nat) : Bool :=
  !l.isEmpty && decide (l.length ≤ MAX_LINE_SIZE) &&
    l.all (fun b => !IS_LINE_END b && b != 0) && (l.head? != some SCRIPT_FILE_END)

/-- A non-empty run of line terminators. -/
def terminators_ok (ts : List Nat) : Bool :=
  !ts.isEmpty && ts.all IS_LINE_END

/-- The buffer made of each line followed by its run of line terminators, and
then the end marker. -/
def script_of : List (List Nat × List Nat) → List Nat
  | [] => [SCRIPT_FILE_END]
  | it :: rest => it.1 ++ (it.2 ++ script_of rest)

/-- The lines that do not start with the comment marker, in their order. -/
def visible_lines (items : List (List Nat × List Nat)) : List (List Nat) :=
  (items.map Prod.fst).filter (fun l => l.head? != some SCRIPT_FILE_COMMENT)

/-- The values of `script`, the cursor, after each call of `script_next_line`
made by the loop of lines 98-103. -/
def script_cursors (run_command : List Nat → Int) : Nat → List Nat → Nat → List Nat
  | 0, _, _ => []
  | fuel + 1, buf, cur =>
    match script_next_line buf cur with
    | .line buf1 cur1 next_line =>
      if run_command (c_string buf1 next_line) ≠ 0 then [cur1]
      else cur1 :: script_cursors run_command fuel buf1 cur1
    | .file_end _ cur1 _ => [cur1]
    | .too_long _ cur1 _ => [cur1]
    | .fault => []
    | .timeout => []

/-- The buffer holds an end marker at an index `k` at or after the cursor `c`,
and, when `k` is after the cursor, a line terminator just before it. -/
def Terminated (buf : List Nat) (c k : Nat) : Prop :=
  c ≤ k ∧ buf[k]? = some SCRIPT_FILE_END ∧
    (c < k → ∃ t, buf[k - 1]? = some t ∧ IS_LINE_END t = true)

/-! ## More relations and sample inputs -/

/-- The skip loop entered at index `p` arrives at index `k`, at the top of an
iteration, after it has stepped over line terminators and over comments that
end within `MAX_LINE_SIZE` bytes. -/
inductive SkipsOver (buf : List Nat) : Nat → Nat → Prop where
  | here {p : Nat} : SkipsOver buf p p
  | line_end {p k c : Nat} : buf[p]? = some c → IS_LINE_END c = true →
      SkipsOver buf (p + 1) k → SkipsOver buf p k
  | comment {p q i k c : Nat} : buf[p]? = some c → IS_LINE_END c = false →
      IS_COMMENT c = true → ScanStops buf p 0 q i → i ≤ MAX_LINE_SIZE →
      SkipsOver buf q k → SkipsOver buf p k

/-- A buffer that starts with a comment of 8002 bytes, followed by the line `A`
and the end marker. -/
def long_comment_buf : List Nat := 35 :: (List.replicate 8000 65 ++ [66, 10, 65, 10, 37])

/-- The buffer made of each line followed by a line feed, and then `n` NUL
bytes: a script without end marker in zeroed memory. -/
def nul_script : List (List Nat) → Nat → List Nat
  | [], n => List.replicate n 0
  | l :: rest, n => l ++ (10 :: nul_script rest n)

/-- The lines that do not start with the comment marker, in their order. -/
def command_lines (lines : List (List Nat)) : List (List Nat) :=
  lines.filter (fun l => l.head? != some SCRIPT_FILE_COMMENT)

/-! ## The result of a run, from the yielded lines -/

/-- The lines a run executes out of the yielded lines: every line up to and
including the first one whose command returns a non-zero code. -/
def executed (run_command : List Nat → Int) : List (List Nat) → List (List Nat)
  | [] => []
  | l :: ls => if run_command l ≠ 0 then [l] else l :: executed run_command ls

/-- The code of the last executed command, or `CMD_RET_SUCCESS` when no command
was executed. -/
def last_code (run_command : List Nat → Int) (ex : List (List Nat)) : Int :=
  match ex.getLast? with
  | none => CMD_RET_SUCCESS
  | some l => run_command l

/-- A zeroed memory that holds the line `A` and a line feed at address 1, and
no end marker. -/
def nul_mem : Nat → Nat :=
  fun a => if a = 1 then 65 else if a = 2 then 10 else 0

/-! ## The pure tokenizer of the specification (sections 4.1 and 9) -/

/-- Result of the skip loop of the pure tokenizer. -/
inductive PureSkip where
  /-- the loop stopped at index `p`, on a byte that is neither a line terminator
  nor the comment marker -/
  | stop (p : Nat)
  /-- a comment exceeded `MAX_LINE_SIZE`: the script is ended -/
  | overflow (p : Nat)
  /-- a byte was read outside the buffer -/
  | fault
  /-- the fuel ran out -/
  | timeout
  deriving DecidableEq

/-- The skip loop of the pure tokenizer, step 1 of the algorithm of the
specification without the write: line terminators are stepped over, a comment
is scanned to its terminator, and a comment that exceeds `MAX_LINE_SIZE` is
reported as the end of the script. The buffer is only read. -/
def pure_skip_loop : Nat → List Nat → Nat → PureSkip
  | 0, _, _ => .timeout
  | fuel + 1, buf, p =>
    match buf[p]? with
    | none => .fault
    | some c =>
      if IS_LINE_END c then pure_skip_loop fuel buf (p + 1)
      else if IS_COMMENT c then
        match scan_loop buf (MAX_LINE_SIZE + 2) p 0 with
        | .stop q i => if i > MAX_LINE_SIZE then .overflow q else pure_skip_loop fuel buf q
        | .fault => .fault
        | .timeout => .timeout
      else .stop p

/-- Result of one step of the pure tokenizer. -/
inductive PureLine where
  /-- the line is the span of `length` bytes that starts at `start`; the next
  step starts at `cur` -/
  | span (start length cur : Nat)
  /-- no more lines -/
  | done
  /-- a byte was read outside the buffer -/
  | fault
  /-- the fuel ran out -/
  | timeout
  deriving DecidableEq

/-- One step of the pure tokenizer, steps 2 and 3 of the algorithm of the
specification with a span in place of the write: no more lines on the end marker
or on an overflow, else the span from the line start to the line terminator,
and the cursor one byte past the terminator. -/
def pure_next_line (buf : List Nat) (cur : Nat) : PureLine :=
  match pure_skip_loop (buf.length + 1) buf cur with
  | .fault => .fault
  | .timeout => .timeout
  | .overflow _ => .done
  | .stop p =>
    match buf[p]? with
    | none => .fault
    | some c =>
      if IS_FILE_END c then .done
      else
        match scan_loop buf (MAX_LINE_SIZE + 2) p 0 with
        | .fault => .fault
        | .timeout => .timeout
        | .stop q i => if i > MAX_LINE_SIZE then .done else .span p (q - p) (q + 1)

/-- The spans (start, length) yielded by the pure tokenizer, which is run on the
same buffer at every step. -/
def pure_spans : Nat → List Nat → Nat → List (Nat × Nat)
  | 0, _, _ => []
  | fuel + 1, buf, cur =>
    match pure_next_line buf cur with
    | .span s n cur1 => (s, n) :: pure_spans fuel buf cur1
    | _ => []

/-- The spans (start, length) of the lines yielded by repeated calls of
`script_next_line`, each call on the buffer left by the call before: the length
runs from the returned line start to the byte before the new cursor, the
overwritten terminator. -/
def yielded_spans : Nat → List Nat → Nat → List (Nat × Nat)
  | 0, _, _ => []
  | fuel + 1, buf, cur =>
    match script_next_line buf cur with
    | .line buf1 cur1 next_line =>
      (next_line, cur1 - 1 - next_line) :: yielded_spans fuel buf1 cur1
    | _ => []

/-! ## The fetchers `do_sd_update`, `do_usb_update`, `do_tftp_update` (lines 109-243) -/

/-- The bytes of a string literal of the source. -/
def str (s : String) : List Nat := s.toList.map Char.toNat

/-- The conversion `%08lx` of `snprintf`: the hexadecimal digits of `n`, in
lower case, padded with zeros on the left to at least 8 digits. -/
def hex08 (n : Nat) : List Nat :=
  (List.replicate (8 - (Nat.toDigits 16 n).length) '0' ++ Nat.toDigits 16 n).map Char.toNat

/-- The conversion `%d` of `snprintf`. -/
def dec (i : Int) : List Nat :=
  if i < 0 then 45 :: (Nat.toDigits 10 (-i).toNat).map Char.toNat
  else (Nat.toDigits 10 i.toNat).map Char.toNat

/-- The call `snprintf(cmd, sizeof(cmd), ...)` into `char cmd[128]`: at most 127
bytes of the formatted text are kept. -/
def snprintf_cmd (text : List Nat) : List Nat := text.take 127

/-- The command `script 0x%08lx` of lines 144, 205 and 237. -/
def script_cmd (buf : Nat) : List Nat :=
  snprintf_cmd (str "script 0x" ++ hex08 buf)

/-- The command `fatload mmc 1 0x%08lx sd_update.txt` of lines 140-141. -/
def sd_load_cmd (buf : Nat) : List Nat :=
  snprintf_cmd (str "fatload mmc 1 0x" ++ hex08 buf ++ str " sd_update.txt")

/-- The command `fatload usb %d 0x%08lx usb_update.txt` of lines 201-202. -/
def usb_load_cmd (devnum : Int) (buf : Nat) : List Nat :=
  snprintf_cmd (str "fatload usb " ++ dec devnum ++ str " 0x" ++ hex08 buf ++
    str " usb_update.txt")

/-- The command `tftp 0x%08lx tftp_update.txt` of line 234. -/
def tftp_load_cmd (buf : Nat) : List Nat :=
  snprintf_cmd (str "tftp 0x" ++ hex08 buf ++ str " tftp_update.txt")

/-- The fields of `struct blk_desc` (include/blk.h) that the fetchers read or
write. -/
structure blk_desc where
  type : Nat
  lba : Nat
  blksz : Nat
  devnum : Int
  part_type : Nat
  deriving DecidableEq

/-- What a run of a fetcher did: the value returned, the command lines passed
to `run_command` in order, and the block descriptor as the fetcher leaves it,
when it has obtained one. -/
structure Fetch where
  ret : Int
  commands : List (List Nat)
  desc : Option blk_desc
  deriving DecidableEq

/-- The function `do_sd_update`. The parameters stand for what lies outside the
file: whether `CONFIG_MMC_DW_ROCKCHIP` is defined, the constant `PART_TYPE_DOS`,
the value returned by `mmc_initialize`, the descriptor returned by
`blk_get_devnum_by_type(IF_TYPE_MMC, 1)` (`none` for a null pointer), the address
returned by `memalign` (`none` for a null pointer), and the command executor. -/
def do_sd_update (config_mmc_dw_rockchip : Bool) (PART_TYPE_DOS : Nat) ( mmc_initialize : Int)
    (blk_get_devnum_by_type : Option blk_desc) (memalign : Option Nat)
    (run_command : List Nat → Int) : Fetch :=
  if config_mmc_dw_rockchip && decide ( mmc_initialize ≠ 0) then ⟨ mmc_initialize, [], none⟩
  else
    match blk_get_devnum_by_type with
    | none => ⟨CMD_RET_FAILURE, [], none⟩
    | some desc =>
      match memalign with
      | none => ⟨CMD_RET_FAILURE, [], some desc⟩
      | some buf =>
        let part_type := desc.part_type
        let desc1 := { desc with part_type := PART_TYPE_DOS }
        let cmd := sd_load_cmd buf
        let ret := run_command cmd
        if ret = 0 then
          let cmd2 := script_cmd buf
          ⟨run_command cmd2, [cmd, cmd2], some { desc1 with part_type := part_type }⟩
        else ⟨ret, [cmd], some { desc1 with part_type := part_type }⟩

/-- The loop of lines 170-181 over the USB block devices, given by their
descriptors in the order of `blk_first_device` and `blk_next_device`: the value
of `devnum` after the loop. -/
def find_udisk (DEV_TYPE_UNKNOWN : Nat) : List blk_desc → Int
  | [] => -1
  | desc :: rest =>
    if desc.type = DEV_TYPE_UNKNOWN then find_udisk DEV_TYPE_UNKNOWN rest
    else if 0 < desc.lba ∧ 0 < desc.blksz then desc.devnum
    else find_udisk DEV_TYPE_UNKNOWN rest

/-- The function `do_usb_update`. The parameters stand for what lies outside the
file: the constants `DEV_TYPE_UNKNOWN` and `PART_TYPE_DOS`, the descriptors of
the USB block devices, the function `blk_get_devnum_by_type(IF_TYPE_USB, .)`,
the address returned by `memalign`, and the command executor. -/
def do_usb_update (DEV_TYPE_UNKNOWN PART_TYPE_DOS : Nat) (devices : List blk_desc)
    (blk_get_devnum_by_type : Int → Option blk_desc) (memalign : Option Nat)
    (run_command : List Nat → Int) : Fetch :=
  if run_command (str "usb reset") ≠ 0 then ⟨CMD_RET_FAILURE, [str "usb reset"], none⟩
  else
    let devnum := find_udisk DEV_TYPE_UNKNOWN devices
    if devnum < 0 then ⟨CMD_RET_FAILURE, [str "usb reset"], none⟩
    else
      match blk_get_devnum_by_type devnum with
      | none => ⟨CMD_RET_FAILURE, [str "usb reset"], none⟩
      | some desc =>
        match memalign with
        | none => ⟨CMD_RET_FAILURE, [str "usb reset"], some desc⟩
        | some buf =>
          let part_type := desc.part_type
          let desc1 := { desc with part_type := PART_TYPE_DOS }
          let cmd := usb_load_cmd devnum buf
          let ret := run_command cmd
          if ret = 0 then
            let cmd2 := script_cmd buf
            ⟨run_command cmd2, [str "usb reset", cmd, cmd2],
              some { desc1 with part_type := part_type }⟩
          else ⟨ret, [str "usb reset", cmd], some { desc1 with part_type := part_type }⟩

/-- The function `do_tftp_update`. `argv i = none` stands for a null `argv[i]`;
`memalign` is the address returned by `memalign`, `none` for a null pointer. The
value returned by the command `dhcp` is not used. -/
def do_tftp_update (argc : Int) (argv : Nat → Option (List Nat)) (memalign : Option Nat)
    (run_command : List Nat → Int) : Fetch :=
  let dhcp := decide (argc > 1) && (argv 1 == some (str "-d"))
  match memalign with
  | none => ⟨CMD_RET_FAILURE, [], none⟩
  | some buf =>
    let ran := if dhcp then [str "dhcp"] else []
    let cmd := tftp_load_cmd buf
    let ret := run_command cmd
    if ret = 0 then
      let cmd2 := script_cmd buf
      ⟨run_command cmd2, ran ++ [cmd, cmd2], none⟩
    else ⟨ret, ran ++ [cmd], none⟩

/-! # Properties -/

/-! ## The scanning loop as a relation -/

theorem scan_loop_sound (buf : List Nat) (q j : Nat) :
    ∀ f p i, scan_loop buf f p i = .stop q j → ScanStops buf p i q j := by
  intro f
  induction f with
  | zero => intro p i h; simp [scan_loop] at h
  | succ f ih =>
    intro p i h
    unfold scan_loop at h
    cases hb : buf[p]? with
    | none => simp [hb] at h
    | some c =>
      simp only [hb] at h
      by_cases hc : (!IS_LINE_END c && decide (i ≤ MAX_LINE_SIZE)) = true
      · rw [if_pos hc] at h
        obtain ⟨h1, h2, h3, h4, h5⟩ := ih _ _ h
        simp only [Bool.and_eq_true, Bool.not_eq_true', decide_eq_true_eq] at hc
        refine ⟨by omega, by omega, fun _ => ?_, ?_, h5⟩
        · by_cases hq : p + 1 < q
          · exact h3 hq
          · omega
        · intro x hx1 hx2
          by_cases hxp : x = p
          · subst hxp; exact ⟨c, hb, hc.1⟩
          · exact h4 x (by omega) hx2
      · rw [if_neg hc] at h
        simp only [Scan.stop.injEq] at h
        obtain ⟨rfl, rfl⟩ := h
        refine ⟨le_refl _, rfl, fun hlt => absurd hlt (lt_irrefl _), ?_, c, hb, ?_⟩
        · intro x hx1 hx2; omega
        · simp only [Bool.and_eq_true, Bool.not_eq_true', decide_eq_true_eq, not_and,
            not_le] at hc
          cases hl : IS_LINE_END c with
          | true => exact Or.inl rfl
          | false => exact Or.inr (hc hl)

theorem scan_loop_complete (buf : List Nat) (q j : Nat) :
    ∀ f p i, ScanStops buf p i q j → q - p < f → scan_loop buf f p i = .stop q j := by
  intro f
  induction f with
  | zero => intro p i _ hf; omega
  | succ f ih =>
    intro p i h hf
    obtain ⟨h1, h2, h3, h4, c, h5, h6⟩ := h
    unfold scan_loop
    by_cases hpq : p = q
    · subst hpq
      have hj : j = i := by omega
      subst hj
      simp only [h5]
      have hc : ¬ ((!IS_LINE_END c && decide (j ≤ MAX_LINE_SIZE)) = true) := by
        simp only [Bool.and_eq_true, Bool.not_eq_true', decide_eq_true_eq, not_and, not_le]
        intro hl
        rcases h6 with h6 | h6
        · rw [hl] at h6; cases h6
        · exact h6
      rw [if_neg hc]
    · have hlt : p < q := by omega
      obtain ⟨d, hd1, hd2⟩ := h4 p (le_refl _) hlt
      simp only [hd1]
      have hj := h3 hlt
      have hc : (!IS_LINE_END d && decide (i ≤ MAX_LINE_SIZE)) = true := by
        simp only [Bool.and_eq_true, Bool.not_eq_true', decide_eq_true_eq]
        exact ⟨hd2, by omega⟩
      rw [if_pos hc]
      apply ih
      · refine ⟨by omega, by omega, fun _ => hj, ?_, c, h5, h6⟩
        intro x hx1 hx2
        exact h4 x (by omega) hx2
      · omega

theorem scan_loop_ne_timeout (buf : List Nat) :
    ∀ f p i, 0 < f → MAX_LINE_SIZE + 1 < f + i → scan_loop buf f p i ≠ .timeout := by
  intro f
  induction f with
  | zero => intro p i h0 _; omega
  | succ f ih =>
    intro p i _ h
    unfold scan_loop
    cases hb : buf[p]? with
    | none => simp
    | some c =>
      simp only
      by_cases hc : (!IS_LINE_END c && decide (i ≤ MAX_LINE_SIZE)) = true
      · rw [if_pos hc]
        simp only [Bool.and_eq_true, Bool.not_eq_true', decide_eq_true_eq] at hc
        exact ih _ _ (by omega) (by omega)
      · rw [if_neg hc]
        simp

/-- With the fuel used by `script_next_line` the scanning loop computes the
relation. -/
theorem scan_loop_iff (buf : List Nat) (p q j : Nat) :
    scan_loop buf (MAX_LINE_SIZE + 2) p 0 = .stop q j ↔ ScanStops buf p 0 q j := by
  constructor
  · exact scan_loop_sound buf q j _ _ _
  · intro h
    apply scan_loop_complete buf q j _ _ _ h
    obtain ⟨h1, h2, h3, _, _⟩ := h
    by_cases hpq : p < q
    · have := h3 hpq
      omega
    · omega

theorem ScanStops.scan_lt_length {buf : List Nat} {p i q j : Nat} (h : ScanStops buf p i q j) :
    q < buf.length := by
  obtain ⟨_, _, _, _, c, hc, _⟩ := h
  by_contra hlt
  rw [List.getElem?_eq_none (by omega)] at hc
  cases hc

/-- A scan that starts on a byte that is no line terminator moves forward. -/
theorem ScanStops.lt_of_not_line_end {buf : List Nat} {p q j c : Nat}
    (h : ScanStops buf p 0 q j) (hc : buf[p]? = some c) (hl : IS_LINE_END c = false) :
    p < q := by
  obtain ⟨h1, h2, _, _, d, hd, h5⟩ := h
  by_contra hlt
  have hpq : p = q := by omega
  subst hpq
  rw [hc] at hd
  cases hd
  rcases h5 with h5 | h5
  · rw [hl] at h5; cases h5
  · omega

/-- The scan is a function of the buffer: it stops at one place only. -/
theorem ScanStops.unique {buf : List Nat} {p i q j q2 j2 : Nat}
    (h : ScanStops buf p i q j) (h2 : ScanStops buf p i q2 j2) : q = q2 ∧ j = j2 := by
  have e1 := scan_loop_complete buf q j (q - p + (q2 - p) + 1) p i h (by omega)
  have e2 := scan_loop_complete buf q2 j2 (q - p + (q2 - p) + 1) p i h2 (by omega)
  rw [e1] at e2
  simp only [Scan.stop.injEq] at e2
  exact e2

/-- The scan reads the bytes from `p` to `q` only. -/
theorem ScanStops.scan_agree {buf buf2 : List Nat} {p i q j : Nat} (h : ScanStops buf p i q j)
    (hag : ∀ x, p ≤ x → x ≤ q → buf2[x]? = buf[x]?) : ScanStops buf2 p i q j := by
  obtain ⟨h1, h2, h3, h4, c, h5, h6⟩ := h
  refine ⟨h1, h2, h3, ?_, c, ?_, h6⟩
  · intro x hx1 hx2
    rw [hag x hx1 (by omega)]
    exact h4 x hx1 hx2
  · rw [hag q h1 (le_refl _)]
    exact h5

/-! ## The skip loop as a relation -/

theorem write_eq_some {buf : List Nat} {p v : Nat} (h : p < buf.length) :
    write buf p v = some (buf.set p v) := by
  unfold write
  rw [if_pos h]

theorem skip_loop_sound :
    ∀ f buf p b1 k, skip_loop f buf p = .stop b1 k →
      ∃ o, SkipsTo buf p k o ∧ b1 = skip_buf buf k o := by
  intro f
  induction f with
  | zero => intro buf p b1 k h; simp [skip_loop] at h
  | succ f ih =>
    intro buf p b1 k h
    unfold skip_loop at h
    cases hb : buf[p]? with
    | none => simp [hb] at h
    | some c =>
      simp only [hb] at h
      cases hl : IS_LINE_END c with
      | true =>
        simp only [hl, if_true] at h
        obtain ⟨o, ho, hb1⟩ := ih _ _ _ _ h
        exact ⟨o, SkipsTo.line_end hb hl ho, hb1⟩
      | false =>
        simp only [hl, Bool.false_eq_true, if_false] at h
        cases hcm : IS_COMMENT c with
        | false =>
          simp only [hcm, Bool.false_eq_true, if_false, Skip.stop.injEq] at h
          obtain ⟨rfl, rfl⟩ := h
          exact ⟨false, SkipsTo.stop hb hl hcm, by simp [skip_buf]⟩
        | true =>
          simp only [hcm, if_true] at h
          cases hs : scan_loop buf (MAX_LINE_SIZE + 2) p 0 with
          | fault => simp [hs] at h
          | timeout => simp [hs] at h
          | stop q i =>
            simp only [hs] at h
            have hss := (scan_loop_iff buf p q i).1 hs
            by_cases hi : i > MAX_LINE_SIZE
            · rw [if_pos hi, write_eq_some hss.scan_lt_length] at h
              simp only [Skip.stop.injEq] at h
              obtain ⟨rfl, rfl⟩ := h
              exact ⟨true, SkipsTo.overflow hb hl hcm hss hi, by simp [skip_buf]⟩
            · rw [if_neg hi] at h
              obtain ⟨o, ho, hb1⟩ := ih _ _ _ _ h
              exact ⟨o, SkipsTo.comment hb hl hcm hss (by omega) ho, hb1⟩

theorem SkipsTo.le {buf : List Nat} {p k : Nat} {o : Bool} (h : SkipsTo buf p k o) : p ≤ k := by
  induction h with
  | stop _ _ _ => exact le_refl _
  | line_end _ _ _ ih => omega
  | comment hb hl _ hs _ _ ih =>
    have := hs.lt_of_not_line_end hb hl
    omega
  | overflow _ _ _ hs _ => exact hs.1

theorem SkipsTo.lt_length {buf : List Nat} {p k : Nat} {o : Bool} (h : SkipsTo buf p k o) :
    k < buf.length := by
  induction h with
  | stop hb _ _ =>
    by_contra hlt
    rw [List.getElem?_eq_none (by omega)] at hb
    cases hb
  | line_end _ _ _ ih => exact ih
  | comment _ _ _ _ _ _ ih => exact ih
  | overflow _ _ _ hs _ => exact hs.scan_lt_length

theorem skip_loop_complete {buf : List Nat} {p k : Nat} {o : Bool} (h : SkipsTo buf p k o) :
    ∀ f, k - p < f → skip_loop f buf p = .stop (skip_buf buf k o) k := by
  induction h with
  | stop hb hl hcm =>
    intro f hf
    obtain ⟨f, rfl⟩ : ∃ g, f = g + 1 := ⟨f - 1, by omega⟩
    unfold skip_loop
    simp [hb, hl, hcm, skip_buf]
  | @line_end p k c o hb hl hs ih =>
    intro f hf
    have := hs.le
    obtain ⟨f, rfl⟩ : ∃ g, f = g + 1 := ⟨f - 1, by omega⟩
    unfold skip_loop
    simp only [hb, hl, if_true]
    exact ih f (by omega)
  | @comment p q i k c o hb hl hcm hs hi hsk ih =>
    intro f hf
    have h1 := hsk.le
    have h2 := hs.lt_of_not_line_end hb hl
    obtain ⟨f, rfl⟩ : ∃ g, f = g + 1 := ⟨f - 1, by omega⟩
    unfold skip_loop
    simp only [hb, hl, hcm, if_true, Bool.false_eq_true, if_false,
      (scan_loop_iff buf p q i).2 hs]
    rw [if_neg (by omega)]
    exact ih f (by omega)
  | @overflow p q i c hb hl hcm hs hi =>
    intro f hf
    obtain ⟨f, rfl⟩ : ∃ g, f = g + 1 := ⟨f - 1, by omega⟩
    unfold skip_loop
    simp only [hb, hl, hcm, if_true, Bool.false_eq_true, if_false,
      (scan_loop_iff buf p q i).2 hs]
    rw [if_pos hi, write_eq_some hs.scan_lt_length]
    simp [skip_buf]

/-- With the fuel used by `script_next_line` the skip loop computes the relation. -/
theorem skip_loop_iff (buf b1 : List Nat) (p k : Nat) :
    skip_loop (buf.length + 1) buf p = .stop b1 k ↔
      ∃ o, SkipsTo buf p k o ∧ b1 = skip_buf buf k o := by
  constructor
  · exact skip_loop_sound _ _ _ _ _
  · rintro ⟨o, ho, rfl⟩
    have := ho.lt_length
    exact skip_loop_complete ho _ (by omega)

theorem skip_loop_ne_timeout :
    ∀ f buf p, buf.length < f + p → 0 < f → skip_loop f buf p ≠ .timeout := by
  intro f
  induction f with
  | zero => intro buf p _ h0; omega
  | succ f ih =>
    intro buf p hf _
    unfold skip_loop
    cases hb : buf[p]? with
    | none => simp
    | some c =>
      have hp : p < buf.length := by
        by_contra hlt
        rw [List.getElem?_eq_none (by omega)] at hb
        cases hb
      simp only
      cases hl : IS_LINE_END c with
      | true =>
        simp only [if_true]
        exact ih _ _ (by omega) (by omega)
      | false =>
        simp only [Bool.false_eq_true, if_false]
        cases hcm : IS_COMMENT c with
        | false => simp
        | true =>
          simp only [if_true]
          cases hs : scan_loop buf (MAX_LINE_SIZE + 2) p 0 with
          | fault => simp
          | timeout =>
            exact absurd hs (scan_loop_ne_timeout buf _ _ _ (by omega) (by omega))
          | stop q i =>
            simp only
            have hss := (scan_loop_iff buf p q i).1 hs
            by_cases hi : i > MAX_LINE_SIZE
            · rw [if_pos hi, write_eq_some hss.scan_lt_length]
              simp
            · rw [if_neg hi]
              have := hss.lt_of_not_line_end hb hl
              have := hss.scan_lt_length
              exact ih _ _ (by omega) (by omega)

/-! ## One call of `script_next_line` -/

theorem getElem?_set_file_end {buf : List Nat} {k : Nat} (h : k < buf.length) :
    (buf.set k SCRIPT_FILE_END)[k]? = some SCRIPT_FILE_END := by
  simp [List.getElem?_set, h]

theorem IS_FILE_END_file_end : IS_FILE_END SCRIPT_FILE_END = true := by
  simp [IS_FILE_END]

/-- A line is returned. -/
theorem script_next_line_line {buf : List Nat} {c s q i x : Nat}
    (hs : SkipsTo buf c s false) (hx : buf[s]? = some x) (hfe : IS_FILE_END x = false)
    (hsc : ScanStops buf s 0 q i) (hi : i ≤ MAX_LINE_SIZE) :
    script_next_line buf c = .line (buf.set q 0) (q + 1) s := by
  unfold script_next_line
  rw [(skip_loop_iff buf _ c s).2 ⟨false, hs, rfl⟩]
  simp only [skip_buf, Bool.false_eq_true, if_false, hx, hfe, (scan_loop_iff buf s q i).2 hsc]
  rw [if_neg (by omega), write_eq_some hsc.scan_lt_length]

/-- The call returns `NULL` because the end marker is under the pointer. -/
theorem script_next_line_file_end {buf : List Nat} {c k : Nat} {o : Bool}
    (hs : SkipsTo buf c k o)
    (h : o = false → ∃ x, buf[k]? = some x ∧ IS_FILE_END x = true) :
    script_next_line buf c = .file_end (skip_buf buf k o) c k := by
  unfold script_next_line
  rw [(skip_loop_iff buf _ c k).2 ⟨o, hs, rfl⟩]
  cases o with
  | true =>
    simp only [skip_buf, if_true, getElem?_set_file_end hs.lt_length, IS_FILE_END_file_end]
  | false =>
    obtain ⟨x, hx, hfe⟩ := h rfl
    simp only [skip_buf, Bool.false_eq_true, if_false, hx, hfe, if_true]

/-- The call returns `NULL` because the line is too long. -/
theorem script_next_line_too_long {buf : List Nat} {c s q i x : Nat}
    (hs : SkipsTo buf c s false) (hx : buf[s]? = some x) (hfe : IS_FILE_END x = false)
    (hsc : ScanStops buf s 0 q i) (hi : MAX_LINE_SIZE < i) :
    script_next_line buf c = .too_long buf c s := by
  unfold script_next_line
  rw [(skip_loop_iff buf _ c s).2 ⟨false, hs, rfl⟩]
  simp only [skip_buf, Bool.false_eq_true, if_false, hx, hfe, (scan_loop_iff buf s q i).2 hsc]
  rw [if_pos hi]

/-- The shape of a call: what each outcome says about the buffer. -/
theorem script_next_line_cases (buf : List Nat) (c : Nat) :
    (∃ s q i x, SkipsTo buf c s false ∧ buf[s]? = some x ∧ IS_FILE_END x = false ∧
        ScanStops buf s 0 q i ∧ i ≤ MAX_LINE_SIZE ∧
        script_next_line buf c = .line (buf.set q 0) (q + 1) s) ∨
    (∃ k o, SkipsTo buf c k o ∧ (o = false → ∃ x, buf[k]? = some x ∧ IS_FILE_END x = true) ∧
        script_next_line buf c = .file_end (skip_buf buf k o) c k) ∨
    (∃ s q i x, SkipsTo buf c s false ∧ buf[s]? = some x ∧ IS_FILE_END x = false ∧
        ScanStops buf s 0 q i ∧ MAX_LINE_SIZE < i ∧
        script_next_line buf c = .too_long buf c s) ∨
    script_next_line buf c = .fault := by
  cases hsk : skip_loop (buf.length + 1) buf c with
  | fault => right; right; right; simp [script_next_line, hsk]
  | timeout =>
    exact absurd hsk (skip_loop_ne_timeout _ _ _ (by omega) (by omega))
  | stop b1 k =>
    obtain ⟨o, ho, rfl⟩ := (skip_loop_iff buf b1 c k).1 hsk
    cases o with
    | true =>
      right; left
      exact ⟨k, true, ho, by simp, script_next_line_file_end ho (by simp)⟩
    | false =>
      have hk := ho.lt_length
      obtain ⟨x, hx⟩ : ∃ x, buf[k]? = some x := ⟨buf[k], by simp [hk]⟩
      cases hfe : IS_FILE_END x with
      | true =>
        right; left
        exact ⟨k, false, ho, fun _ => ⟨x, hx, hfe⟩,
          script_next_line_file_end ho (fun _ => ⟨x, hx, hfe⟩)⟩
      | false =>
        cases hs : scan_loop buf (MAX_LINE_SIZE + 2) k 0 with
        | fault =>
          right; right; right
          simp [script_next_line, hsk, skip_buf, hx, hfe, hs]
        | timeout =>
          exact absurd hs (scan_loop_ne_timeout buf _ _ _ (by omega) (by omega))
        | stop q i =>
          have hss := (scan_loop_iff buf k q i).1 hs
          by_cases hi : i ≤ MAX_LINE_SIZE
          · left
            exact ⟨k, q, i, x, ho, hx, hfe, hss, hi, script_next_line_line ho hx hfe hss hi⟩
          · right; right; left
            exact ⟨k, q, i, x, ho, hx, hfe, hss, by omega,
              script_next_line_too_long ho hx hfe hss (by omega)⟩

theorem script_next_line_ne_timeout (buf : List Nat) (c : Nat) :
    script_next_line buf c ≠ .timeout := by
  rcases script_next_line_cases buf c with ⟨_, _, _, _, _, _, _, _, _, h⟩ |
    ⟨_, _, _, _, h⟩ | ⟨_, _, _, _, _, _, _, _, _, h⟩ | h <;> rw [h] <;> simp

theorem script_next_line_line_inv {buf b2 : List Nat} {c c1 s : Nat}
    (h : script_next_line buf c = .line b2 c1 s) :
    ∃ q i x, c1 = q + 1 ∧ b2 = buf.set q 0 ∧ SkipsTo buf c s false ∧ buf[s]? = some x ∧
      IS_FILE_END x = false ∧ ScanStops buf s 0 q i ∧ i ≤ MAX_LINE_SIZE := by
  rcases script_next_line_cases buf c with ⟨s2, q, i, x, h1, h2, h3, h4, h5, h6⟩ |
    ⟨_, _, _, _, h6⟩ | ⟨_, _, _, _, _, _, _, _, _, h6⟩ | h6
  · rw [h6] at h
    simp only [Outcome.line.injEq] at h
    obtain ⟨rfl, rfl, rfl⟩ := h
    exact ⟨q, i, x, rfl, rfl, h1, h2, h3, h4, h5⟩
  all_goals (rw [h6] at h; cases h)

theorem script_next_line_file_end_inv {buf b1 : List Nat} {c c1 k : Nat}
    (h : script_next_line buf c = .file_end b1 c1 k) :
    c1 = c ∧ ∃ o, b1 = skip_buf buf k o ∧ SkipsTo buf c k o ∧
      (o = false → ∃ x, buf[k]? = some x ∧ IS_FILE_END x = true) := by
  rcases script_next_line_cases buf c with ⟨_, _, _, _, _, _, _, _, _, h6⟩ |
    ⟨k2, o, h1, h2, h6⟩ | ⟨_, _, _, _, _, _, _, _, _, h6⟩ | h6
  · rw [h6] at h; cases h
  · rw [h6] at h
    simp only [Outcome.file_end.injEq] at h
    obtain ⟨rfl, rfl, rfl⟩ := h
    exact ⟨rfl, o, rfl, h1, h2⟩
  all_goals (rw [h6] at h; cases h)

theorem script_next_line_too_long_inv {buf b1 : List Nat} {c c1 s : Nat}
    (h : script_next_line buf c = .too_long b1 c1 s) :
    c1 = c ∧ b1 = buf ∧ ∃ q i x, SkipsTo buf c s false ∧ buf[s]? = some x ∧
      IS_FILE_END x = false ∧ ScanStops buf s 0 q i ∧ MAX_LINE_SIZE < i := by
  rcases script_next_line_cases buf c with ⟨_, _, _, _, _, _, _, _, _, h6⟩ |
    ⟨_, _, _, _, h6⟩ | ⟨s2, q, i, x, h1, h2, h3, h4, h5, h6⟩ | h6
  · rw [h6] at h; cases h
  · rw [h6] at h; cases h
  · rw [h6] at h
    simp only [Outcome.too_long.injEq] at h
    obtain ⟨rfl, rfl, rfl⟩ := h
    exact ⟨rfl, rfl, q, i, x, h1, h2, h3, h4, h5⟩
  · rw [h6] at h; cases h

/-! ## The bytes a call depends on -/

/-- An overflowing scan does not depend on the byte it stops at. -/
theorem ScanStops.agree_overflow {buf buf2 : List Nat} {p i q j : Nat}
    (h : ScanStops buf p i q j) (hj : MAX_LINE_SIZE < j)
    (hag : ∀ x, p ≤ x → x < q → buf2[x]? = buf[x]?) (hq : q < buf2.length) :
    ScanStops buf2 p i q j := by
  obtain ⟨h1, h2, h3, h4, _⟩ := h
  refine ⟨h1, h2, h3, ?_, buf2[q], by simp [hq], Or.inr hj⟩
  intro x hx1 hx2
  rw [hag x hx1 hx2]
  exact h4 x hx1 hx2

theorem SkipsTo.lt_of_line_end {buf : List Nat} {p k c : Nat} {o : Bool}
    (h : SkipsTo buf p k o) (hc : buf[p]? = some c) (hl : IS_LINE_END c = true) : p < k := by
  cases h with
  | stop hb hl2 _ => rw [hc] at hb; cases hb; rw [hl] at hl2; cases hl2
  | line_end _ _ hs => have := hs.le; omega
  | comment hb hl2 _ _ _ _ => rw [hc] at hb; cases hb; rw [hl] at hl2; cases hl2
  | overflow hb hl2 _ _ _ => rw [hc] at hb; cases hb; rw [hl] at hl2; cases hl2

/-- A scan that stays within `MAX_LINE_SIZE` stops on a line terminator. -/
theorem ScanStops.line_end_of_le {buf : List Nat} {p i q j : Nat}
    (h : ScanStops buf p i q j) (hj : j ≤ MAX_LINE_SIZE) :
    ∃ c, buf[q]? = some c ∧ IS_LINE_END c = true := by
  obtain ⟨_, _, _, _, c, hc, h5⟩ := h
  rcases h5 with h5 | h5
  · exact ⟨c, hc, h5⟩
  · omega

/-- The skip loop reads the bytes from `p` to `k` only, and not the byte at `k`
when a comment overflows there. -/
theorem SkipsTo.agree {buf : List Nat} {p k : Nat} {o : Bool} (h : SkipsTo buf p k o) :
    ∀ buf2 : List Nat, (∀ x, p ≤ x → x < k → buf2[x]? = buf[x]?) →
      (o = false → buf2[k]? = buf[k]?) → k < buf2.length → SkipsTo buf2 p k o := by
  induction h with
  | stop hb hl hcm =>
    intro buf2 _ h2 _
    exact SkipsTo.stop ((h2 rfl).trans hb) hl hcm
  | @line_end p k c o hb hl hs ih =>
    intro buf2 h1 h2 h3
    have hlt := (SkipsTo.line_end hb hl hs).lt_of_line_end hb hl
    exact SkipsTo.line_end ((h1 p (le_refl _) hlt).trans hb) hl
      (ih buf2 (fun x hx1 hx2 => h1 x (by omega) hx2) h2 h3)
  | @comment p q i k c o hb hl hcm hs hi hsk ih =>
    intro buf2 h1 h2 h3
    have hpq := hs.lt_of_not_line_end hb hl
    obtain ⟨d, hd, hdl⟩ := hs.line_end_of_le hi
    have hqk := hsk.lt_of_line_end hd hdl
    exact SkipsTo.comment ((h1 p (le_refl _) (by omega)).trans hb) hl hcm
      (hs.scan_agree (fun x hx1 hx2 => h1 x hx1 (by omega))) hi
      (ih buf2 (fun x hx1 hx2 => h1 x (by omega) hx2) h2 h3)
  | @overflow p q i c hb hl hcm hs hi =>
    intro buf2 h1 _ h3
    have hpq := hs.lt_of_not_line_end hb hl
    exact SkipsTo.overflow ((h1 p (le_refl _) hpq).trans hb) hl hcm
      (hs.agree_overflow hi h1 h3) hi

theorem lt_length_of_getElem? {buf : List Nat} {p c : Nat} (h : buf[p]? = some c) :
    p < buf.length := by
  by_contra hlt
  rw [List.getElem?_eq_none (by omega)] at h
  cases h

/-! ## C strings -/

theorem c_string_cons {buf : List Nat} {s x : Nat} (h : buf[s]? = some x) (hx : x ≠ 0) :
    c_string buf s = x :: c_string buf (s + 1) := by
  have hs := lt_length_of_getElem? h
  have hx2 : buf[s] = x := by
    rw [List.getElem?_eq_getElem hs] at h
    exact Option.some.inj h
  unfold c_string
  rw [List.drop_eq_getElem_cons hs, hx2, List.takeWhile_cons]
  simp [hx]

theorem c_string_nil {buf : List Nat} {s : Nat} (h : buf[s]? = some 0) :
    c_string buf s = [] := by
  have hs := lt_length_of_getElem? h
  have hx2 : buf[s] = 0 := by
    rw [List.getElem?_eq_getElem hs] at h
    exact Option.some.inj h
  unfold c_string
  rw [List.drop_eq_getElem_cons hs, hx2, List.takeWhile_cons]
  simp

/-- A C string depends on the bytes up to its first NUL only. -/
theorem c_string_agree {buf buf2 : List Nat} :
    ∀ (n s q : Nat), q = s + n → (∀ x, s ≤ x → x ≤ q → buf2[x]? = buf[x]?) →
      buf[q]? = some 0 → c_string buf2 s = c_string buf s := by
  intro n
  induction n with
  | zero =>
    intro s q hq hag h0
    have : q = s := by omega
    subst this
    rw [c_string_nil h0, c_string_nil ((hag q (le_refl _) (le_refl _)).trans h0)]
  | succ n ih =>
    intro s q hq hag h0
    have hq2 := lt_length_of_getElem? h0
    have hs : s < buf.length := by omega
    have hbs : buf[s]? = some buf[s] := List.getElem?_eq_getElem hs
    by_cases hx : buf[s] = 0
    · rw [hx] at hbs
      rw [c_string_nil hbs, c_string_nil ((hag s (le_refl _) (by omega)).trans hbs)]
    · rw [c_string_cons hbs hx, c_string_cons ((hag s (le_refl _) (by omega)).trans hbs) hx,
        ih (s + 1) q (by omega) (fun x hx1 hx2 => hag x (by omega) hx2) h0]

/-! ## Repeated calls -/

theorem tokenize_loop_succ_line {buf b1 : List Nat} {c c1 s : Nat} (f : Nat)
    (h : script_next_line buf c = .line b1 c1 s) :
    tokenize_loop (f + 1) buf c =
      (c_string b1 s :: (tokenize_loop f b1 c1).1, (tokenize_loop f b1 c1).2) := by
  rw [tokenize_loop, h]

theorem tokenize_loop_succ_null {buf : List Nat} {c : Nat} (f : Nat)
    (h : ∀ b1 c1 s, script_next_line buf c ≠ .line b1 c1 s) :
    tokenize_loop (f + 1) buf c = ([], script_next_line buf c) := by
  rw [tokenize_loop]
  split
  · rename_i b1 c1 s heq
    exact absurd heq (h b1 c1 s)
  · rfl

/-- Tokenization that ends on the end marker at index `k` has read the bytes up
to `k` only: on every buffer that agrees up to `k`, and with any fuel that
covers the lines returned, it returns the same lines and ends at `k`. -/
theorem tokenize_loop_agree :
    ∀ (f : Nat) (buf : List Nat) (c : Nat) (ls : List (List Nat)) (bf : List Nat) (cf k : Nat),
      tokenize_loop f buf c = (ls, .file_end bf cf k) →
      c + ls.length ≤ k ∧ k < buf.length ∧ ∀ (buf2 : List Nat) (f2 : Nat), (∀ x, c ≤ x → x ≤ k → buf2[x]? = buf[x]?) →
        ls.length < f2 → ∃ bf2, tokenize_loop f2 buf2 c = (ls, .file_end bf2 cf k) := by
  intro f
  induction f with
  | zero => intro buf c ls bf cf k h; simp [tokenize_loop] at h
  | succ f ih =>
    intro buf c ls bf cf k h
    rcases script_next_line_cases buf c with ⟨s, q, i, x, h1, h2, h3, h4, h5, h6⟩ |
      ⟨k2, o, h1, h2, h6⟩ | ⟨_, _, _, _, _, _, _, _, _, h6⟩ | h6
    · rw [tokenize_loop_succ_line f h6] at h
      simp only [Prod.mk.injEq] at h
      obtain ⟨hls, hend⟩ := h
      have hrest : tokenize_loop f (buf.set q 0) (q + 1) =
          ((tokenize_loop f (buf.set q 0) (q + 1)).1, .file_end bf cf k) := by
        rw [← hend]
      obtain ⟨hle, hklt, hag⟩ := ih _ _ _ _ _ _ hrest
      rw [List.length_set] at hklt
      have hcs := h1.le
      have hsq := h4.1
      subst hls
      refine ⟨by simp only [List.length_cons]; omega, hklt, ?_⟩
      intro buf2 f2 hag2 hf2
      obtain ⟨f2, rfl⟩ : ∃ g, f2 = g + 1 := ⟨f2 - 1, by simp at hf2; omega⟩
      have hx2 : buf2[s]? = some x := (hag2 s hcs (by omega)).trans h2
      have hs2 : SkipsTo buf2 c s false :=
        h1.agree buf2 (fun y hy1 hy2 => hag2 y hy1 (by omega))
          (fun _ => hag2 s hcs (by omega)) (lt_length_of_getElem? hx2)
      have hsc2 : ScanStops buf2 s 0 q i :=
        h4.scan_agree (fun y hy1 hy2 => hag2 y (by omega) (by omega))
      have hq1 := h4.scan_lt_length
      have hq2 := hsc2.scan_lt_length
      obtain ⟨bf2, hbf2⟩ := hag (buf2.set q 0) f2
        (fun y hy1 hy2 => by
          rw [List.getElem?_set_ne (by omega), List.getElem?_set_ne (by omega)]
          exact hag2 y (by omega) hy2)
        (by simp at hf2; omega)
      refine ⟨bf2, ?_⟩
      rw [tokenize_loop_succ_line f2 (script_next_line_line hs2 hx2 h3 hsc2 h5), hbf2]
      have hcstr : c_string (buf2.set q 0) s = c_string (buf.set q 0) s := by
        apply c_string_agree (q - s) s q (by omega)
        · intro y hy1 hy2
          by_cases hyq : y = q
          · subst hyq
            simp [List.getElem?_set, hq1, hq2]
          · rw [List.getElem?_set_ne (by omega), List.getElem?_set_ne (by omega)]
            exact hag2 y (by omega) (by omega)
        · simp [List.getElem?_set, hq1]
      rw [hcstr]
    · rw [tokenize_loop_succ_null f (by rw [h6]; simp), h6] at h
      simp only [Prod.mk.injEq, Outcome.file_end.injEq] at h
      obtain ⟨rfl, rfl, rfl, rfl⟩ := h
      have hck := h1.le
      refine ⟨by simpa using hck, h1.lt_length, ?_⟩
      intro buf2 f2 hag2 hf2
      obtain ⟨f2, rfl⟩ : ∃ g, f2 = g + 1 := ⟨f2 - 1, by omega⟩
      have hk2 : k2 < buf2.length := by
        have := h1.lt_length
        have h3 := hag2 k2 hck (le_refl _)
        rw [List.getElem?_eq_getElem this] at h3
        exact lt_length_of_getElem? h3
      have hs2 : SkipsTo buf2 c k2 o :=
        h1.agree buf2 (fun y hy1 hy2 => hag2 y hy1 (by omega))
          (fun _ => hag2 k2 hck (le_refl _)) hk2
      have hfe := script_next_line_file_end hs2 (fun ho => by
        obtain ⟨x, hx, hfe⟩ := h2 ho
        exact ⟨x, (hag2 k2 hck (le_refl _)).trans hx, hfe⟩)
      refine ⟨skip_buf buf2 k2 o, ?_⟩
      rw [tokenize_loop_succ_null f2 (by rw [hfe]; simp), hfe]
    · rw [tokenize_loop_succ_null f (by rw [h6]; simp), h6] at h
      simp at h
    · rw [tokenize_loop_succ_null f (by rw [h6]; simp), h6] at h
      simp at h

theorem tokenize_loop_ne_line :
    ∀ (f : Nat) (buf : List Nat) (c : Nat) (b1 : List Nat) (c1 s : Nat),
      (tokenize_loop f buf c).2 ≠ .line b1 c1 s := by
  intro f
  induction f with
  | zero => intro buf c b1 c1 s; simp [tokenize_loop]
  | succ f ih =>
    intro buf c b1 c1 s
    rcases script_next_line_cases buf c with ⟨_, _, _, _, _, _, _, _, _, h6⟩ |
      ⟨_, _, _, _, h6⟩ | ⟨_, _, _, _, _, _, _, _, _, h6⟩ | h6
    · rw [tokenize_loop_succ_line f h6]
      exact ih _ _ _ _ _
    all_goals (rw [tokenize_loop_succ_null f (by rw [h6]; simp), h6]; simp)

/-- A returned line moves the cursor forward, so the calls run out before the
fuel does. -/
theorem tokenize_loop_ne_timeout :
    ∀ (f : Nat) (buf : List Nat) (c : Nat), buf.length < f + c → 0 < f →
      (tokenize_loop f buf c).2 ≠ .timeout := by
  intro f
  induction f with
  | zero => intro buf c _ h0; omega
  | succ f ih =>
    intro buf c hf _
    rcases script_next_line_cases buf c with ⟨s, q, i, x, h1, _, _, h4, _, h6⟩ |
      ⟨_, _, _, _, h6⟩ | ⟨_, _, _, _, _, _, _, _, _, h6⟩ | h6
    · rw [tokenize_loop_succ_line f h6]
      have := h1.le
      have := h4.1
      have := h4.scan_lt_length
      exact ih _ _ (by simp only [List.length_set]; omega) (by omega)
    all_goals (rw [tokenize_loop_succ_null f (by rw [h6]; simp), h6]; simp)

theorem tokenize_ne_timeout (buf : List Nat) (c : Nat) : (tokenize buf c).2 ≠ .timeout :=
  tokenize_loop_ne_timeout _ _ _ (by omega) (by omega)

/-- Tokenization ends with a returned `NULL` unless it leaves the buffer. -/
theorem tokenize_is_null {buf : List Nat} {c : Nat} (h : (tokenize buf c).2 ≠ .fault) :
    (tokenize buf c).2.is_null = true := by
  have h1 := tokenize_ne_timeout buf c
  have h2 := tokenize_loop_ne_line (buf.length + 1) buf c
  unfold tokenize at h h1 ⊢
  cases hr : (tokenize_loop (buf.length + 1) buf c).2 with
  | line b1 c1 s => exact absurd hr (h2 b1 c1 s)
  | file_end _ _ _ => rfl
  | too_long _ _ _ => rfl
  | fault => exact absurd hr h
  | timeout => exact absurd hr h1

/-! ## The loop of `do_script` against the tokenizer -/

theorem script_loop_first_failure (run_command : List Nat → Int) :
    ∀ (f : Nat) (buf : List Nat) (c : Nat) (ret : Int) (pre : List (List Nat))
      (l : List Nat) (post : List (List Nat)),
      (tokenize_loop f buf c).1 = pre ++ l :: post →
      (∀ x ∈ pre, run_command x = 0) → run_command l ≠ 0 →
      script_loop run_command f buf c ret = (.returned (run_command l), pre ++ [l]) := by
  intro f
  induction f with
  | zero => intro buf c ret pre l post h; simp [tokenize_loop] at h
  | succ f ih =>
    intro buf c ret pre l post h hpre hl
    rcases script_next_line_cases buf c with ⟨s, q, i, x, _, _, _, _, _, h6⟩ |
      ⟨_, _, _, _, h6⟩ | ⟨_, _, _, _, _, _, _, _, _, h6⟩ | h6
    · rw [tokenize_loop_succ_line f h6] at h
      rw [script_loop, h6]
      cases pre with
      | nil =>
        simp only [List.nil_append, List.cons.injEq] at h
        obtain ⟨h1, _⟩ := h
        simp only [h1, List.nil_append]
        rw [if_pos hl]
      | cons a pre =>
        simp only [List.cons_append, List.cons.injEq] at h
        obtain ⟨h1, h2⟩ := h
        have ha : run_command a = 0 := hpre a (by simp)
        simp only [h1, ha, ne_eq, not_true_eq_false, if_false, List.cons_append]
        rw [ih _ _ _ _ _ _ h2 (fun y hy => hpre y (by simp [hy])) hl]
    all_goals (rw [tokenize_loop_succ_null f (by rw [h6]; simp)] at h; simp at h)

theorem script_loop_all_succeed (run_command : List Nat → Int) :
    ∀ (f : Nat) (buf : List Nat) (c : Nat),
      (tokenize_loop f buf c).2.is_null = true →
      (∀ x ∈ (tokenize_loop f buf c).1, run_command x = 0) →
      script_loop run_command f buf c 0 = (.returned 0, (tokenize_loop f buf c).1) := by
  intro f
  induction f with
  | zero => intro buf c h; simp [tokenize_loop, Outcome.is_null] at h
  | succ f ih =>
    intro buf c h hall
    rcases script_next_line_cases buf c with ⟨s, q, i, x, _, _, _, _, _, h6⟩ |
      ⟨_, _, _, _, h6⟩ | ⟨_, _, _, _, _, _, _, _, _, h6⟩ | h6
    · rw [tokenize_loop_succ_line f h6] at h hall ⊢
      rw [script_loop, h6]
      have ha : run_command (c_string (buf.set q 0) s) = 0 := hall _ (by simp)
      simp only [ha, ne_eq, not_true_eq_false, if_false]
      rw [ih _ _ h (fun y hy => hall y (by simp [hy]))]
    · rw [tokenize_loop_succ_null f (by rw [h6]; simp)]
      rw [script_loop, h6]
    · rw [tokenize_loop_succ_null f (by rw [h6]; simp)]
      rw [script_loop, h6]
    · rw [tokenize_loop_succ_null f (by rw [h6]; simp), h6] at h
      simp [Outcome.is_null] at h

/-! ## The scratch buffer -/

theorem memcpy_length (mem : Nat → Nat) (addr : Nat) :
    (memcpy mem addr).length = SCRIPT_FILE_MAX_SIZE := by
  simp [memcpy]

theorem memcpy_getElem? (mem : Nat → Nat) (addr x : Nat) (hx : x < SCRIPT_FILE_MAX_SIZE) :
    (memcpy mem addr)[x]? = some (mem (addr + x)) := by
  simp [memcpy, List.getElem?_map, List.getElem?_range hx]

/-- The run of `do_script` once the checks of lines 80-94 are passed. -/
theorem do_script_eq_loop (simple_strtoul : List Nat → Nat) (mem : Nat → Nat)
    (run_command : List Nat → Int) (argc : Int) (argv : Nat → Option (List Nat))
    (arg : List Nat) (hargc : argc = 2) (harg : argv 1 = some arg)
    (haddr : simple_strtoul arg ≠ 0) :
    do_script false simple_strtoul true mem run_command argc argv =
      ⟨(script_loop run_command ((memcpy mem (simple_strtoul arg)).length + 1)
            (memcpy mem (simple_strtoul arg)) 0 0).1,
        (script_loop run_command ((memcpy mem (simple_strtoul arg)).length + 1)
            (memcpy mem (simple_strtoul arg)) 0 0).2, true⟩ := by
  simp [do_script, hargc, harg, haddr, memcpy_length, CMD_RET_SUCCESS]

/-- A buffer that starts like `sm`, up to the end marker on which the
tokenization of `sm` ends, is tokenized like `sm`. -/
theorem tokenize_of_agreeing_start {sm buf : List Nat} {ls : List (List Nat)} {bf : List Nat}
    {cf k : Nat} (h : tokenize sm 0 = (ls, .file_end bf cf k))
    (hag : ∀ x, x ≤ k → buf[x]? = sm[x]?) :
    ∃ bf2, tokenize buf 0 = (ls, .file_end bf2 cf k) := by
  obtain ⟨h1, hk, h2⟩ := tokenize_loop_agree _ _ _ _ _ _ _ h
  have hk2 : k < buf.length := by
    have h3 := hag k (le_refl _)
    rw [List.getElem?_eq_getElem hk] at h3
    exact lt_length_of_getElem? h3
  exact h2 buf (buf.length + 1) (fun x _ hx => hag x hx) (by omega)

theorem tokenize_memcpy_mem_of {sm : List Nat} {ls : List (List Nat)} {bf : List Nat}
    {cf k : Nat} (base : Nat) (h : tokenize sm 0 = (ls, .file_end bf cf k))
    (hlen : sm.length ≤ SCRIPT_FILE_MAX_SIZE) :
    ∃ bf2, tokenize (memcpy (mem_of sm base) base) 0 = (ls, .file_end bf2 cf k) := by
  have hk := (tokenize_loop_agree _ _ _ _ _ _ _ h).2.1
  apply tokenize_of_agreeing_start h
  intro x hx
  have hx2 : x < sm.length := by omega
  rw [memcpy_getElem? _ _ _ (by omega)]
  simp [mem_of, List.getElem?_eq_getElem hx2]

/-- C2: once the checks of `do_script` are passed, if the tokenizer yields the
lines `pre ++ l :: post` on the script buffer, every line of `pre` executes with
code zero and `l` executes with a non-zero code, then `do_script` submits exactly
`pre ++ [l]` to the executor, in order, submits no line of `post`, and returns the
code of `l`. -/
theorem do_script_stops_at_first_failure (simple_strtoul : List Nat → Nat) (mem : Nat → Nat)
    (run_command : List Nat → Int) (argc : Int) (argv : Nat → Option (List Nat))
    (arg : List Nat) (hargc : argc = 2) (harg : argv 1 = some arg)
    (haddr : simple_strtoul arg ≠ 0) (pre post : List (List Nat)) (l : List Nat)
    (htok : (tokenize (memcpy mem (simple_strtoul arg)) 0).1 = pre ++ l :: post)
    (hpre : ∀ x ∈ pre, run_command x = 0) (hl : run_command l ≠ 0) :
    do_script false simple_strtoul true mem run_command argc argv =
      ⟨.returned (run_command l), pre ++ [l], true⟩ := by
  rw [do_script_eq_loop simple_strtoul mem run_command argc argv arg hargc harg haddr,
    script_loop_first_failure run_command _ _ _ _ pre l post htok hpre hl]

/-- C2 on the script `A`, `B`, `C` where `B` fails with code 7. -/
theorem do_script_stops_at_first_failure_witness :
    do_script false (fun _ => 1) true (mem_of [65, 10, 66, 10, 67, 10, 37] 1)
        (fun l => if l = [66] then 7 else 0) 2 (fun _ => some [49]) =
      ⟨.returned 7, [[65], [66]], true⟩ := by
  have htok : tokenize [65, 10, 66, 10, 67, 10, 37] 0 =
      ([[65], [66], [67]], .file_end [65, 0, 66, 0, 67, 0, 37] 6 6) := by decide
  obtain ⟨bf2, h2⟩ := tokenize_memcpy_mem_of 1 htok (by decide)
  exact do_script_stops_at_first_failure (fun _ => 1) (mem_of [65, 10, 66, 10, 67, 10, 37] 1)
    (fun l => if l = [66] then 7 else 0) 2 (fun _ => some [49]) [49] rfl rfl (by decide)
    [[65]] [[67]] [66] (by rw [h2]; rfl) (by decide) (by decide)

/-- C5, amended: once the checks of `do_script` are passed, if the tokenization
of the script buffer makes no access outside the buffer and every line it yields
executes with code zero (no line at all included), then `do_script` submits every
yielded line to the executor, in order, and returns zero. -/
theorem do_script_all_succeed (simple_strtoul : List Nat → Nat) (mem : Nat → Nat)
    (run_command : List Nat → Int) (argc : Int) (argv : Nat → Option (List Nat))
    (arg : List Nat) (hargc : argc = 2) (harg : argv 1 = some arg)
    (haddr : simple_strtoul arg ≠ 0)
    (hin : (tokenize (memcpy mem (simple_strtoul arg)) 0).2 ≠ .fault)
    (hall : ∀ x ∈ (tokenize (memcpy mem (simple_strtoul arg)) 0).1, run_command x = 0) :
    do_script false simple_strtoul true mem run_command argc argv =
      ⟨.returned 0, (tokenize (memcpy mem (simple_strtoul arg)) 0).1, true⟩ := by
  have hnull := tokenize_is_null hin
  unfold tokenize at hnull hall ⊢
  rw [do_script_eq_loop simple_strtoul mem run_command argc argv arg hargc harg haddr,
    script_loop_all_succeed run_command _ _ _ hnull hall]

/-- C5, amended, on the script `A`, `B`, `C` where every command succeeds. -/
theorem do_script_all_succeed_witness :
    do_script false (fun _ => 1) true (mem_of [65, 10, 66, 10, 67, 10, 37] 1)
        (fun _ => 0) 2 (fun _ => some [49]) =
      ⟨.returned 0, [[65], [66], [67]], true⟩ := by
  have htok : tokenize [65, 10, 66, 10, 67, 10, 37] 0 =
      ([[65], [66], [67]], .file_end [65, 0, 66, 0, 67, 0, 37] 6 6) := by decide
  obtain ⟨bf2, h2⟩ := tokenize_memcpy_mem_of 1 htok (by decide)
  have h := do_script_all_succeed (fun _ => 1) (mem_of [65, 10, 66, 10, 67, 10, 37] 1)
    (fun _ => 0) 2 (fun _ => some [49]) [49] rfl rfl (by decide)
    (by rw [h2]; simp) (by intro x _; rfl)
  rw [h2] at h
  exact h

/-- C7: when `script_next_line` returns `NULL`, the cursor is the one it was
called with, and a second call on the resulting buffer and cursor returns `NULL`
again with the same buffer and the same cursor. -/
theorem script_next_line_null_idempotent (buf : List Nat) (cur : Nat) (o : Outcome)
    (h : script_next_line buf cur = o) (hnull : o.is_null = true) :
    ∃ b1 p, (o = .file_end b1 cur p ∨ o = .too_long b1 cur p) ∧
      script_next_line b1 cur = o := by
  subst h
  rcases script_next_line_cases buf cur with ⟨_, _, _, _, _, _, _, _, _, h6⟩ |
    ⟨k, o, h1, h2, h6⟩ | ⟨s, _, _, _, _, _, _, _, _, h6⟩ | h6
  · rw [h6] at hnull; simp [Outcome.is_null] at hnull
  · refine ⟨skip_buf buf k o, k, Or.inl h6, ?_⟩
    rw [h6]
    cases o with
    | false => simpa [skip_buf] using h6
    | true =>
      have hk := h1.lt_length
      have hs : SkipsTo (skip_buf buf k true) cur k true := by
        apply h1.agree
        · intro x _ hx
          simp only [skip_buf, if_true]
          exact List.getElem?_set_ne (by omega)
        · intro hf; cases hf
        · simp only [skip_buf, if_true, List.length_set]
          exact hk
      have h7 := script_next_line_file_end hs (by intro hf; cases hf)
      rw [h7]
      simp [skip_buf]
  · exact ⟨buf, s, Or.inr h6, rfl⟩
  · rw [h6] at hnull; simp [Outcome.is_null] at hnull

/-- C7 on a buffer with a blank line and a comment before the end marker. -/
theorem script_next_line_null_idempotent_witness :
    ∃ b1 p, (Outcome.file_end [10, 35, 99, 10, 37, 65] 0 4 = .file_end b1 0 p ∨
        Outcome.file_end [10, 35, 99, 10, 37, 65] 0 4 = .too_long b1 0 p) ∧
      script_next_line b1 0 = .file_end [10, 35, 99, 10, 37, 65] 0 4 :=
  script_next_line_null_idempotent [10, 35, 99, 10, 37, 65] 0
    (.file_end [10, 35, 99, 10, 37, 65] 0 4) (by decide) (by decide)

/-- The skip loop left by the `break` of line 50 stands on a byte that is no end
marker only if it has not changed the buffer. -/
theorem skip_loop_stop_not_file_end {buf b1 : List Nat} {cur s x : Nat}
    (hskip : skip_loop (buf.length + 1) buf cur = .stop b1 s) (hx : b1[s]? = some x)
    (hne : x ≠ SCRIPT_FILE_END) : b1 = buf ∧ SkipsTo buf cur s false := by
  obtain ⟨o, ho, rfl⟩ := (skip_loop_iff buf b1 cur s).1 hskip
  cases o with
  | false => exact ⟨by simp [skip_buf], ho⟩
  | true =>
    simp only [skip_buf, if_true, getElem?_set_file_end ho.lt_length, Option.some.injEq] at hx
    exact absurd hx.symm hne

theorem IS_FILE_END_eq_false {x : Nat} (h : x ≠ SCRIPT_FILE_END) : IS_FILE_END x = false := by
  simp only [IS_FILE_END, beq_eq_false_iff_ne, ne_eq]
  exact fun h2 => h h2.symm

/-- C3: when the skip loop stops at index `s` on a byte other than the end
marker, `script_next_line` returns the line that starts at `s` if and only if a
line terminator occurs among the bytes `s .. s + MAX_LINE_SIZE`; when none occurs
there and the byte at `s + MAX_LINE_SIZE + 1` lies in the buffer, it returns
`NULL` with the cursor and the buffer unchanged, and so do all repeated calls: no
further line is returned. -/
theorem script_next_line_line_limit (buf b1 : List Nat) (cur s x : Nat)
    (hskip : skip_loop (buf.length + 1) buf cur = .stop b1 s) (hx : b1[s]? = some x)
    (hne : x ≠ SCRIPT_FILE_END) :
    ((∃ k c, k ≤ MAX_LINE_SIZE ∧ buf[s + k]? = some c ∧ IS_LINE_END c = true) ↔
      ∃ b2 c2, script_next_line buf cur = .line b2 c2 s) ∧
    ((¬ ∃ k c, k ≤ MAX_LINE_SIZE ∧ buf[s + k]? = some c ∧ IS_LINE_END c = true) →
      s + MAX_LINE_SIZE + 1 < buf.length →
      script_next_line buf cur = .too_long buf cur s ∧
        ∀ f, tokenize_loop (f + 1) buf cur = ([], .too_long buf cur s)) := by
  obtain ⟨hb1, hs⟩ := skip_loop_stop_not_file_end hskip hx hne
  rw [hb1] at hx
  have hfe := IS_FILE_END_eq_false hne
  refine ⟨⟨?_, ?_⟩, ?_⟩
  · rintro ⟨k, c, hk, hc, hl⟩
    -- the first line terminator at or after `s`
    have hex : ∃ n, ∃ c, buf[s + n]? = some c ∧ IS_LINE_END c = true := ⟨k, c, hc, hl⟩
    classical
    let n := Nat.find hex
    have hn : ∃ c, buf[s + n]? = some c ∧ IS_LINE_END c = true := Nat.find_spec hex
    have hnk : n ≤ k := Nat.find_min' hex ⟨c, hc, hl⟩
    have hmin : ∀ m, m < n → ¬ ∃ c, buf[s + m]? = some c ∧ IS_LINE_END c = true :=
      fun m hm => Nat.find_min hex hm
    obtain ⟨d, hd, hdl⟩ := hn
    have hlen := lt_length_of_getElem? hd
    have hsc : ScanStops buf s 0 (s + n) n := by
      refine ⟨by omega, by omega, fun _ => by omega, ?_, d, hd, Or.inl hdl⟩
      intro y hy1 hy2
      have hy : y < buf.length := by omega
      refine ⟨buf[y], List.getElem?_eq_getElem hy, ?_⟩
      cases hyl : IS_LINE_END buf[y] with
      | false => rfl
      | true =>
        exfalso
        apply hmin (y - s) (by omega)
        refine ⟨buf[y], ?_, hyl⟩
        rw [show s + (y - s) = y by omega]
        exact List.getElem?_eq_getElem hy
    exact ⟨_, _, script_next_line_line hs hx hfe hsc (by omega)⟩
  · rintro ⟨b2, c2, h⟩
    obtain ⟨q, i, y, _, _, _, _, _, hsc, hi⟩ := script_next_line_line_inv h
    obtain ⟨d, hd, hdl⟩ := hsc.line_end_of_le hi
    obtain ⟨h1, h2, _⟩ := hsc
    refine ⟨q - s, d, by omega, ?_, hdl⟩
    rw [show s + (q - s) = q by omega]
    exact hd
  · intro hno hlen
    have hsc : ScanStops buf s 0 (s + MAX_LINE_SIZE + 1) (MAX_LINE_SIZE + 1) := by
      refine ⟨by omega, by omega, fun _ => le_refl _, ?_,
        buf[s + MAX_LINE_SIZE + 1], List.getElem?_eq_getElem hlen, Or.inr (by omega)⟩
      intro y hy1 hy2
      have hy : y < buf.length := by omega
      refine ⟨buf[y], List.getElem?_eq_getElem hy, ?_⟩
      cases hyl : IS_LINE_END buf[y] with
      | false => rfl
      | true =>
        exfalso
        apply hno
        refine ⟨y - s, buf[y], by omega, ?_, hyl⟩
        rw [show s + (y - s) = y by omega]
        exact List.getElem?_eq_getElem hy
    have h := script_next_line_too_long hs hx hfe hsc (by omega)
    refine ⟨h, fun f => ?_⟩
    rw [tokenize_loop_succ_null f (by rw [h]; simp), h]

theorem long_line_buf_getElem? (k : Nat) (hk : k ≤ MAX_LINE_SIZE) :
    long_line_buf[k]? = some 65 := by
  have hk2 : k < 8001 := by simp only [MAX_LINE_SIZE] at hk; omega
  unfold long_line_buf
  rw [List.getElem?_append_left (by rw [List.length_replicate]; exact hk2),
    List.getElem?_replicate, if_pos hk2]

theorem long_line_buf_length : long_line_buf.length = 8006 := by
  unfold long_line_buf
  rw [List.length_append, List.length_replicate]
  rfl

/-- C3 on a buffer whose first line has 8002 bytes. -/
theorem script_next_line_line_limit_witness :
    script_next_line long_line_buf 0 = .too_long long_line_buf 0 0 ∧
      ∀ f, tokenize_loop (f + 1) long_line_buf 0 = ([], .too_long long_line_buf 0 0) :=
  (script_next_line_line_limit long_line_buf long_line_buf 0 0 65
    (by
      rw [skip_loop]
      simp [long_line_buf_getElem? 0 (Nat.zero_le _), IS_LINE_END, IS_COMMENT,
        SCRIPT_FILE_COMMENT])
    (long_line_buf_getElem? 0 (Nat.zero_le _)) (by decide)).2
    (by
      rintro ⟨k, c, hk, hc, hl⟩
      rw [Nat.zero_add, long_line_buf_getElem? k hk] at hc
      cases hc
      simp [IS_LINE_END] at hl)
    (by rw [long_line_buf_length]; decide)

/-- C9 as stated fails: the buffer `A#B%` + `\n%` yields the line `A#B%`, which
holds both a comment marker and an end marker. -/
theorem line_with_markers_counterexample :
    ¬ (∀ (buf b1 : List Nat) (cur c1 s : Nat), script_next_line buf cur = .line b1 c1 s →
        SCRIPT_FILE_COMMENT ∉ c_string b1 s ∧ SCRIPT_FILE_END ∉ c_string b1 s) := by
  intro h
  have h1 : script_next_line [65, 35, 66, 37, 10, 37] 0 = .line [65, 35, 66, 37, 0, 37] 5 0 := by
    decide
  have h2 := (h _ _ _ _ _ h1).1
  revert h2
  decide

/-- C9, amended: a line yielded by `script_next_line` does not start with the
comment marker or the end marker: the byte at the returned line start is neither,
and neither is the first byte of the returned C string. -/
theorem line_starts_with_no_marker (buf b1 : List Nat) (cur c1 s : Nat)
    (h : script_next_line buf cur = .line b1 c1 s) :
    (∃ x, b1[s]? = some x ∧ x ≠ SCRIPT_FILE_COMMENT ∧ x ≠ SCRIPT_FILE_END) ∧
      (c_string b1 s).head? ≠ some SCRIPT_FILE_COMMENT ∧
      (c_string b1 s).head? ≠ some SCRIPT_FILE_END := by
  obtain ⟨q, i, x, rfl, rfl, hs, hx, hfe, hsc, hi⟩ := script_next_line_line_inv h
  have hcm : IS_COMMENT x = false ∧ IS_LINE_END x = false := by
    have : ∀ p k o, SkipsTo buf p k o → o = false → ∀ y, buf[k]? = some y →
        IS_COMMENT y = false ∧ IS_LINE_END y = false := by
      intro p k o hsk
      induction hsk with
      | stop hb hl hc =>
        intro _ y hy
        rw [hb] at hy
        cases hy
        exact ⟨hc, hl⟩
      | line_end _ _ _ ih => exact ih
      | comment _ _ _ _ _ _ ih => exact ih
      | overflow _ _ _ _ _ => intro hf; cases hf
    exact this _ _ _ hs rfl x hx
  have hsq : s < q := hsc.lt_of_not_line_end hx hcm.2
  have hx1 : x ≠ SCRIPT_FILE_COMMENT := by
    intro hxe
    have := hcm.1
    simp [IS_COMMENT, hxe] at this
  have hx2 : x ≠ SCRIPT_FILE_END := by
    intro hxe
    simp [IS_FILE_END, hxe] at hfe
  have hb1 : (buf.set q 0)[s]? = some x := by
    rw [List.getElem?_set_ne (by omega)]
    exact hx
  refine ⟨⟨x, hb1, hx1, hx2⟩, ?_⟩
  by_cases hx0 : x = 0
  · rw [hx0] at hb1
    rw [c_string_nil hb1]
    simp
  · rw [c_string_cons hb1 hx0]
    simp only [List.head?_cons, ne_eq, Option.some.injEq]
    exact ⟨hx1, hx2⟩

/-- C9, amended, on the line `A#B%`. -/
theorem line_starts_with_no_marker_witness :
    (∃ x, [65, 35, 66, 37, 0, 37][0]? = some x ∧ x ≠ SCRIPT_FILE_COMMENT ∧
        x ≠ SCRIPT_FILE_END) ∧
      (c_string [65, 35, 66, 37, 0, 37] 0).head? ≠ some SCRIPT_FILE_COMMENT ∧
      (c_string [65, 35, 66, 37, 0, 37] 0).head? ≠ some SCRIPT_FILE_END :=
  line_starts_with_no_marker [65, 35, 66, 37, 10, 37] [65, 35, 66, 37, 0, 37] 0 5 0 (by decide)

/-- C10 as stated fails: with `CONFIG_FIT_SIGNATURE` defined, a call without an
address argument returns `CMD_RET_FAILURE`, not `CMD_RET_USAGE`. -/
theorem do_script_usage_counterexample :
    (do_script true (fun _ => 0) true (fun _ => 0) (fun _ => 0) 1 (fun _ => none)).status =
        .returned CMD_RET_FAILURE ∧
      (do_script true (fun _ => 0) true (fun _ => 0) (fun _ => 0) 1 (fun _ => none)).status ≠
        .returned CMD_RET_USAGE := by
  constructor
  · rfl
  · simp [do_script, CMD_RET_FAILURE, CMD_RET_USAGE]

/-- C10, amended: when `CONFIG_FIT_SIGNATURE` is not defined, `do_script` returns
`CMD_RET_USAGE`, submits no line and does not call `calloc`, whenever the
argument count is not 2 or the address argument is null or parses to zero. -/
theorem do_script_usage (simple_strtoul : List Nat → Nat) (calloc_ok : Bool)
    (mem : Nat → Nat) (run_command : List Nat → Int) (argc : Int)
    (argv : Nat → Option (List Nat))
    (h : argc ≠ 2 ∨ ∀ arg, argv 1 = some arg → simple_strtoul arg = 0) :
    do_script false simple_strtoul calloc_ok mem run_command argc argv =
      ⟨.returned CMD_RET_USAGE, [], false⟩ := by
  unfold do_script
  simp only [Bool.false_eq_true, if_false]
  by_cases hargc : argc ≠ 2
  · simp [hargc]
  · have h2 : ∀ arg, argv 1 = some arg → simple_strtoul arg = 0 := by
      rcases h with h | h
      · exact absurd h hargc
      · exact h
    simp only [hargc, if_false]
    cases harg : argv 1 with
    | none => rfl
    | some arg => simp [h2 arg harg]

/-- C10, amended, on an address argument that parses to zero. -/
theorem do_script_usage_witness :
    do_script false (fun _ => 0) true (fun _ => 37) (fun _ => 1) 2 (fun _ => some [48]) =
      ⟨.returned CMD_RET_USAGE, [], false⟩ :=
  do_script_usage (fun _ => 0) true (fun _ => 37) (fun _ => 1) 2 (fun _ => some [48])
    (Or.inr (fun _ _ => rfl))

/-- C4: when tokenizing `buf` from cursor 0 ends on the end marker at index `k`,
every buffer that agrees with `buf` on the indices `0 .. k` is tokenized into the
same lines and ends on the end marker at the same index `k`, with the same
cursor, whatever it holds after `k`. -/
theorem tokenize_ignores_bytes_after_end (buf : List Nat) (ls : List (List Nat))
    (bf : List Nat) (cf k : Nat) (h : tokenize buf 0 = (ls, .file_end bf cf k))
    (buf2 : List Nat) (hag : ∀ x, x ≤ k → buf2[x]? = buf[x]?) :
    ∃ bf2, tokenize buf2 0 = (ls, .file_end bf2 cf k) :=
  tokenize_of_agreeing_start h hag

/-- C4 on the script `A` with a second script after its end marker. -/
theorem tokenize_ignores_bytes_after_end_witness :
    ∃ bf2, tokenize [65, 10, 37, 66, 10, 37] 0 = ([[65]], .file_end bf2 2 2) :=
  tokenize_ignores_bytes_after_end [65, 10, 37] [[65]] [65, 0, 37] 2 2 (by decide)
    [65, 10, 37, 66, 10, 37] (by decide)

/-! ## Buffers given as concatenations -/

theorem getElem?_append_mid (pre mid tl : List Nat) (j : Nat) (hj : j < mid.length) :
    (pre ++ (mid ++ tl))[pre.length + j]? = mid[j]? := by
  rw [List.getElem?_append_right (by omega), Nat.add_sub_cancel_left,
    List.getElem?_append_left hj]

theorem getElem?_append_head (pre tl : List Nat) (x : Nat) :
    (pre ++ x :: tl)[pre.length]? = some x := by
  rw [List.getElem?_append_right (le_refl _), Nat.sub_self]
  simp

theorem all_not_line_end {body : List Nat}
    (h : body.all (fun b => !IS_LINE_END b) = true) (j : Nat) (hj : j < body.length) :
    IS_LINE_END body[j] = false := by
  rw [List.all_eq_true] at h
  have := h body[j] (List.getElem_mem hj)
  simpa using this

/-- The skip loop runs over blank pieces up to the end marker, or up to the place
where a comment overflows. -/
theorem blank_script_skips :
    ∀ (pieces : List (Option (List Nat) × Nat)) (pre : List Nat),
      (∀ p ∈ pieces, blank_ok p = true) →
      ∃ k o, SkipsTo (pre ++ blank_script pieces) pre.length k o ∧
        (o = false → ∃ x, (pre ++ blank_script pieces)[k]? = some x ∧ IS_FILE_END x = true) := by
  intro pieces
  induction pieces with
  | nil =>
    intro pre _
    have hb : (pre ++ blank_script [])[pre.length]? = some SCRIPT_FILE_END :=
      getElem?_append_head pre [] SCRIPT_FILE_END
    exact ⟨pre.length, false, SkipsTo.stop hb (by decide) (by decide),
      fun _ => ⟨_, hb, by decide⟩⟩
  | cons p ps ih =>
    intro pre hok
    obtain ⟨k, o, hsk, hend⟩ := ih (pre ++ blank_bytes p) (fun q hq => hok q (by simp [hq]))
    have hp := hok p (by simp)
    rw [List.append_assoc, List.length_append] at hsk
    rw [List.append_assoc] at hend
    obtain ⟨body, t⟩ := p
    cases body with
    | none =>
      simp only [blank_ok] at hp
      have hb : (pre ++ blank_script ((none, t) :: ps))[pre.length]? = some t :=
        getElem?_append_head pre _ t
      exact ⟨k, o, SkipsTo.line_end hb hp hsk, hend⟩
    | some body =>
      simp only [blank_ok, Bool.and_eq_true] at hp
      obtain ⟨ht, hbody⟩ := hp
      have hbuf : blank_script ((some body, t) :: ps) =
          (SCRIPT_FILE_COMMENT :: (body ++ [t])) ++ blank_script ps := rfl
      have hmid : ∀ j, j < (SCRIPT_FILE_COMMENT :: (body ++ [t])).length →
          (pre ++ blank_script ((some body, t) :: ps))[pre.length + j]? =
            (SCRIPT_FILE_COMMENT :: (body ++ [t]))[j]? := by
        intro j hj
        rw [hbuf]
        exact getElem?_append_mid pre _ _ j hj
      have hlen : (SCRIPT_FILE_COMMENT :: (body ++ [t])).length = body.length + 2 := by simp
      have h0 : (pre ++ blank_script ((some body, t) :: ps))[pre.length]? =
          some SCRIPT_FILE_COMMENT := by
        have := hmid 0 (by omega)
        simpa using this
      have hin : ∀ j (hj : j < body.length),
          (pre ++ blank_script ((some body, t) :: ps))[pre.length + (j + 1)]? =
            some body[j] := by
        intro j hj
        rw [hmid (j + 1) (by omega), List.getElem?_cons_succ,
          List.getElem?_append_left hj, List.getElem?_eq_getElem hj]
      have hlast : (pre ++ blank_script ((some body, t) :: ps))[pre.length +
          (body.length + 1)]? = some t := by
        rw [hmid (body.length + 1) (by omega), List.getElem?_cons_succ,
          List.getElem?_append_right (le_refl _), Nat.sub_self]
        simp
      have hnl : ∀ x, pre.length ≤ x → x < pre.length + (body.length + 1) →
          ∃ c, (pre ++ blank_script ((some body, t) :: ps))[x]? = some c ∧
            IS_LINE_END c = false := by
        intro x hx1 hx2
        by_cases hx : x = pre.length
        · subst hx
          exact ⟨_, h0, by decide⟩
        · have hj : x - pre.length - 1 < body.length := by omega
          refine ⟨body[x - pre.length - 1], ?_, all_not_line_end hbody _ hj⟩
          rw [← hin _ hj]
          congr 1
          omega
      simp only [blank_bytes, List.length_cons, List.length_append, List.length_singleton]
        at hsk
      by_cases hshort : body.length + 1 ≤ MAX_LINE_SIZE
      · have hsc : ScanStops (pre ++ blank_script ((some body, t) :: ps)) pre.length 0
            (pre.length + (body.length + 1)) (body.length + 1) :=
          ⟨by omega, by omega, fun _ => by omega, hnl, t, hlast, Or.inl ht⟩
        refine ⟨k, o, SkipsTo.comment h0 (by decide) (by decide) hsc hshort
          (SkipsTo.line_end hlast ht ?_), hend⟩
        rw [show pre.length + (body.length + 1) + 1 = pre.length + (body.length + 1 + 1) by
          omega]
        exact hsk
      · have hq : pre.length + (MAX_LINE_SIZE + 1) <
            (pre ++ blank_script ((some body, t) :: ps)).length := by
          rw [hbuf, List.length_append, List.length_append, hlen]
          omega
        have hsc : ScanStops (pre ++ blank_script ((some body, t) :: ps)) pre.length 0
            (pre.length + (MAX_LINE_SIZE + 1)) (MAX_LINE_SIZE + 1) :=
          ⟨by omega, by omega, fun _ => le_refl _,
            fun x hx1 hx2 => hnl x hx1 (by omega), _, List.getElem?_eq_getElem hq,
            Or.inr (by omega)⟩
        exact ⟨_, true, SkipsTo.overflow h0 (by decide) (by decide) hsc (by omega),
          fun hf => by cases hf⟩

/-- C6: on a buffer made of line terminators and comment lines followed by the
end marker, the first call of `script_next_line` from cursor 0 returns `NULL`
with the end marker under its pointer, and the tokenization yields no line. -/
theorem blank_script_yields_no_line (pieces : List (Option (List Nat) × Nat))
    (hok : ∀ p ∈ pieces, blank_ok p = true) :
    (∃ b1 k, script_next_line (blank_script pieces) 0 = .file_end b1 0 k) ∧
      (script_next_line (blank_script pieces) 0).is_null = true ∧
      (tokenize (blank_script pieces) 0).1 = [] := by
  obtain ⟨k, o, hsk, hend⟩ := blank_script_skips pieces [] hok
  simp only [List.nil_append, List.length_nil] at hsk hend
  have h := script_next_line_file_end hsk hend
  refine ⟨⟨_, _, h⟩, by rw [h]; rfl, ?_⟩
  unfold tokenize
  rw [tokenize_loop_succ_null _ (by rw [h]; simp)]

/-- C6 on a blank line followed by the comment line `# c`. -/
theorem blank_script_yields_no_line_witness :
    (∃ b1 k, script_next_line [13, 10, 35, 32, 99, 13, 10, 37] 0 = .file_end b1 0 k) ∧
      (script_next_line [13, 10, 35, 32, 99, 13, 10, 37] 0).is_null = true ∧
      (tokenize [13, 10, 35, 32, 99, 13, 10, 37] 0).1 = [] :=
  blank_script_yields_no_line [(none, 13), (none, 10), (some [32, 99], 13), (none, 10)]
    (by decide)

/-! ## Well-formed scripts -/

theorem line_ok_spec {l : List Nat} (h : line_ok l = true) :
    0 < l.length ∧ l.length ≤ MAX_LINE_SIZE ∧
      (∀ j (hj : j < l.length), IS_LINE_END l[j] = false ∧ l[j] ≠ 0) ∧
      l[0]? ≠ some SCRIPT_FILE_END := by
  simp only [line_ok, Bool.and_eq_true, Bool.not_eq_true', decide_eq_true_eq,
    List.all_eq_true, bne_iff_ne, ne_eq] at h
  obtain ⟨⟨⟨h1, h2⟩, h3⟩, h4⟩ := h
  refine ⟨?_, h2, ?_, ?_⟩
  · cases l with
    | nil => simp at h1
    | cons a l => simp
  · intro j hj
    have := h3 l[j] (List.getElem_mem hj)
    simpa using this
  · rw [← List.head?_eq_getElem?]
    exact h4

theorem terminators_ok_spec {ts : List Nat} (h : terminators_ok ts = true) :
    0 < ts.length ∧ ∀ j (hj : j < ts.length), IS_LINE_END ts[j] = true := by
  simp only [terminators_ok, Bool.and_eq_true, Bool.not_eq_true', List.all_eq_true] at h
  obtain ⟨h1, h2⟩ := h
  refine ⟨?_, fun j hj => h2 ts[j] (List.getElem_mem hj)⟩
  cases ts with
  | nil => simp at h1
  | cons a l => simp

/-- The skip loop steps over a run of line terminators. -/
theorem skips_line_ends {buf : List Nat} {k : Nat} {o : Bool} :
    ∀ (n p : Nat), (∀ j, j < n → ∃ t, buf[p + j]? = some t ∧ IS_LINE_END t = true) →
      SkipsTo buf (p + n) k o → SkipsTo buf p k o := by
  intro n
  induction n with
  | zero => intro p _ h; exact h
  | succ n ih =>
    intro p hle h
    obtain ⟨t, ht, htl⟩ := hle 0 (by omega)
    refine SkipsTo.line_end ht htl (ih (p + 1) (fun j hj => ?_) ?_)
    · obtain ⟨t2, ht2, htl2⟩ := hle (j + 1) (by omega)
      exact ⟨t2, by rw [show p + 1 + j = p + (j + 1) by omega]; exact ht2, htl2⟩
    · rw [show p + 1 + n = p + (n + 1) by omega]
      exact h

/-- The C string at `s` is `l` when the bytes of `l`, none NUL, stand at `s` and a
NUL follows them. -/
theorem c_string_segment {buf : List Nat} :
    ∀ (l : List Nat) (s : Nat), (∀ j (hj : j < l.length), buf[s + j]? = some l[j]) →
      (∀ j (hj : j < l.length), l[j] ≠ 0) → buf[s + l.length]? = some 0 →
      c_string buf s = l := by
  intro l
  induction l with
  | nil =>
    intro s _ _ h0
    exact c_string_nil h0
  | cons x l ih =>
    intro s hl hnz h0
    have hx := hl 0 (by simp)
    have hx0 := hnz 0 (by simp)
    simp only [List.getElem_cons_zero, Nat.add_zero] at hx hx0
    rw [c_string_cons hx hx0, ih (s + 1)]
    · intro j hj
      have := hl (j + 1) (by simp; omega)
      simp only [List.getElem_cons_succ] at this
      rw [show s + 1 + j = s + (j + 1) by omega]
      exact this
    · intro j hj
      have := hnz (j + 1) (by simp; omega)
      simpa using this
    · rw [show s + 1 + l.length = s + (x :: l).length by simp; omega]
      exact h0

theorem visible_lines_cons (it : List Nat × List Nat) (items : List (List Nat × List Nat)) :
    visible_lines (it :: items) =
      if it.1[0]? = some SCRIPT_FILE_COMMENT then visible_lines items
      else it.1 :: visible_lines items := by
  simp only [visible_lines, List.map_cons, List.filter_cons, bne_iff_ne, ne_eq,
    List.head?_eq_getElem?, ite_not]

theorem script_of_cons_getElem?_line (it : List Nat × List Nat)
    (items : List (List Nat × List Nat)) (j : Nat) (hj : j < it.1.length) :
    (script_of (it :: items))[j]? = some it.1[j] := by
  show (it.1 ++ (it.2 ++ script_of items))[j]? = _
  rw [List.getElem?_append_left hj, List.getElem?_eq_getElem hj]

theorem script_of_cons_getElem?_term (it : List Nat × List Nat)
    (items : List (List Nat × List Nat)) (j : Nat) (hj : j < it.2.length) :
    (script_of (it :: items))[it.1.length + j]? = some it.2[j] := by
  show (it.1 ++ (it.2 ++ script_of items))[it.1.length + j]? = _
  rw [List.getElem?_append_right (by omega), Nat.add_sub_cancel_left,
    List.getElem?_append_left hj, List.getElem?_eq_getElem hj]

theorem script_of_cons_getElem?_rest (it : List Nat × List Nat)
    (items : List (List Nat × List Nat)) (j : Nat) :
    (script_of (it :: items))[it.1.length + it.2.length + j]? = (script_of items)[j]? := by
  show (it.1 ++ (it.2 ++ script_of items))[it.1.length + it.2.length + j]? = _
  rw [List.getElem?_append_right (by omega),
    show it.1.length + it.2.length + j - it.1.length = it.2.length + j by omega,
    List.getElem?_append_right (by omega), Nat.add_sub_cancel_left]

theorem script_of_length_cons (it : List Nat × List Nat)
    (items : List (List Nat × List Nat)) :
    (script_of (it :: items)).length =
      it.1.length + it.2.length + (script_of items).length := by
  show (it.1 ++ (it.2 ++ script_of items)).length = _
  simp only [List.length_append]
  omega

theorem script_of_length_pos (items : List (List Nat × List Nat)) :
    0 < (script_of items).length := by
  cases items with
  | nil => simp [script_of]
  | cons it items =>
    rw [script_of_length_cons]
    have : 0 < (script_of items).length := script_of_length_pos items
    omega

/-- Tokenization of a buffer that holds a well-formed script from index `P` on,
called with a cursor `c` from which the skip loop reaches `P`. -/
theorem tokenize_loop_script_of :
    ∀ (items : List (List Nat × List Nat)) (buf : List Nat) (P c f : Nat),
      (∀ j, buf[P + j]? = (script_of items)[j]?) →
      (∀ it ∈ items, line_ok it.1 = true ∧ terminators_ok it.2 = true) →
      (∀ k o, SkipsTo buf P k o → SkipsTo buf c k o) → items.length < f →
      ∃ bf cf, tokenize_loop f buf c =
        (visible_lines items, .file_end bf cf (P + (script_of items).length - 1)) := by
  intro items
  induction items with
  | nil =>
    intro buf P c f hbuf _ hskip hf
    obtain ⟨f, rfl⟩ : ∃ g, f = g + 1 := ⟨f - 1, by omega⟩
    have hb : buf[P]? = some SCRIPT_FILE_END := by
      have := hbuf 0
      simpa [script_of] using this
    have hs := hskip _ _ (SkipsTo.stop hb (by decide) (by decide))
    have h := script_next_line_file_end hs (fun _ => ⟨_, hb, by decide⟩)
    refine ⟨skip_buf buf P false, c, ?_⟩
    rw [tokenize_loop_succ_null f (by rw [h]; simp), h]
    simp [visible_lines, script_of]
  | cons it items ih =>
    intro buf P c f hbuf hok hskip hf
    obtain ⟨hl, hts⟩ := hok it (by simp)
    obtain ⟨hL, hLmax, hlb, hl0⟩ := line_ok_spec hl
    obtain ⟨hT, htb⟩ := terminators_ok_spec hts
    have hline : ∀ j (hj : j < it.1.length), buf[P + j]? = some it.1[j] := fun j hj => by
      rw [hbuf j, script_of_cons_getElem?_line it items j hj]
    have hterm : ∀ j (hj : j < it.2.length), buf[P + it.1.length + j]? = some it.2[j] :=
      fun j hj => by
        rw [Nat.add_assoc, hbuf (it.1.length + j), script_of_cons_getElem?_term it items j hj]
    have hrest : ∀ j, buf[P + it.1.length + it.2.length + j]? = (script_of items)[j]? :=
      fun j => by
        rw [show P + it.1.length + it.2.length + j = P + (it.1.length + it.2.length + j) by
          omega, hbuf, script_of_cons_getElem?_rest]
    have hb0 : buf[P]? = some it.1[0] := hline 0 hL
    have hsc : ScanStops buf P 0 (P + it.1.length) it.1.length := by
      refine ⟨by omega, by omega, fun _ => by omega, ?_, it.2[0], hterm 0 hT, Or.inl (htb 0 hT)⟩
      intro x hx1 hx2
      have hj : x - P < it.1.length := by omega
      refine ⟨it.1[x - P], ?_, (hlb _ hj).1⟩
      rw [← hline _ hj]
      congr 1
      omega
    have hidx : P + it.1.length + it.2.length + (script_of items).length - 1 =
        P + (script_of (it :: items)).length - 1 := by
      rw [script_of_length_cons]
      omega
    have hit0 : it.1[0]? = some it.1[0] := List.getElem?_eq_getElem hL
    rw [visible_lines_cons]
    by_cases hcm : it.1[0]? = some SCRIPT_FILE_COMMENT
    · -- a comment line: the skip loop runs over it and over its terminators
      rw [if_pos hcm]
      have hcm2 : IS_COMMENT it.1[0] = true := by
        rw [hit0] at hcm
        simp only [Option.some.injEq] at hcm
        rw [hcm]
        decide
      have hskip2 : ∀ k o, SkipsTo buf (P + it.1.length + it.2.length) k o →
          SkipsTo buf c k o := by
        intro k o h
        apply hskip
        refine SkipsTo.comment hb0 (hlb 0 hL).1 hcm2 hsc hLmax ?_
        exact skips_line_ends it.2.length (P + it.1.length)
          (fun j hj => ⟨_, hterm j hj, htb j hj⟩) h
      obtain ⟨bf, cf, h⟩ := ih buf (P + it.1.length + it.2.length) c f hrest
        (fun it2 h2 => hok it2 (by simp [h2])) hskip2 (by simp at hf; omega)
      exact ⟨bf, cf, by rw [h, hidx]⟩
    · -- a command line: it is returned, and its terminators are skipped next
      rw [if_neg hcm]
      obtain ⟨f, rfl⟩ : ∃ g, f = g + 1 := ⟨f - 1, by omega⟩
      have hcm2 : IS_COMMENT it.1[0] = false := by
        rw [hit0] at hcm
        simp only [Option.some.injEq] at hcm
        simp only [IS_COMMENT, beq_eq_false_iff_ne, ne_eq]
        exact fun h => hcm h.symm
      have hfe : IS_FILE_END it.1[0] = false := by
        rw [hit0] at hl0
        simp only [ne_eq, Option.some.injEq] at hl0
        exact IS_FILE_END_eq_false hl0
      have hs := hskip _ _ (SkipsTo.stop hb0 (hlb 0 hL).1 hcm2)
      have hcall := script_next_line_line hs hb0 hfe hsc hLmax
      have hq := hsc.scan_lt_length
      have hset : ∀ y, y ≠ P + it.1.length → (buf.set (P + it.1.length) 0)[y]? = buf[y]? :=
        fun y hy => List.getElem?_set_ne (fun h => hy h.symm)
      have hstr : c_string (buf.set (P + it.1.length) 0) P = it.1 := by
        apply c_string_segment
        · intro j hj
          rw [hset _ (by omega)]
          exact hline j hj
        · exact fun j hj => (hlb j hj).2
        · simp [List.getElem?_set, hq]
      have hskip2 : ∀ k o,
          SkipsTo (buf.set (P + it.1.length) 0) (P + it.1.length + it.2.length) k o →
            SkipsTo (buf.set (P + it.1.length) 0) (P + it.1.length + 1) k o := by
        intro k o h
        apply skips_line_ends (it.2.length - 1) (P + it.1.length + 1)
        · intro j hj
          refine ⟨it.2[j + 1], ?_, htb (j + 1) (by omega)⟩
          rw [hset _ (by omega), ← hterm (j + 1) (by omega)]
          congr 1
          omega
        · rw [show P + it.1.length + 1 + (it.2.length - 1) = P + it.1.length + it.2.length by
            omega]
          exact h
      obtain ⟨bf, cf, h⟩ := ih (buf.set (P + it.1.length) 0) (P + it.1.length + it.2.length)
        (P + it.1.length + 1) f
        (fun j => by rw [hset _ (by omega)]; exact hrest j)
        (fun it2 h2 => hok it2 (by simp [h2])) hskip2 (by simp at hf; omega)
      refine ⟨bf, cf, ?_⟩
      rw [tokenize_loop_succ_line f hcall, h, hstr, hidx]

theorem script_of_length_gt (items : List (List Nat × List Nat))
    (hok : ∀ it ∈ items, line_ok it.1 = true ∧ terminators_ok it.2 = true) :
    items.length < (script_of items).length := by
  induction items with
  | nil => simp [script_of]
  | cons it items ih =>
    have h1 := ih (fun it2 h2 => hok it2 (by simp [h2]))
    have h2 := (line_ok_spec (hok it (by simp)).1).1
    rw [script_of_length_cons, List.length_cons]
    omega

/-- C1: for a buffer made of well-formed lines, each followed by a non-empty run
of line terminators, and then the end marker, the repeated calls of
`script_next_line` from cursor 0 return exactly the lines that do not start with
the comment marker, in order and byte for byte, and then return `NULL` on the end
marker, which is the last byte of the buffer. -/
theorem tokenize_script_of (items : List (List Nat × List Nat))
    (hok : ∀ it ∈ items, line_ok it.1 = true ∧ terminators_ok it.2 = true) :
    ∃ bf cf, tokenize (script_of items) 0 =
      (visible_lines items, .file_end bf cf ((script_of items).length - 1)) := by
  have h := tokenize_loop_script_of items (script_of items) 0 0 ((script_of items).length + 1)
    (fun j => by rw [Nat.zero_add]) hok (fun _ _ h => h)
    (by have := script_of_length_gt items hok; omega)
  rw [Nat.zero_add] at h
  exact h

/-- C1 on the buffer of the specification: two comment lines, the lines `A`
and `B`, each ended by a carriage return and a line feed. -/
theorem tokenize_script_of_witness :
    ∃ bf cf, tokenize
        [35, 32, 99, 13, 10, 65, 13, 10, 35, 32, 99, 50, 13, 10, 66, 13, 10, 37] 0 =
      ([[65], [66]], .file_end bf cf 17) :=
  tokenize_script_of
    [([35, 32, 99], [13, 10]), ([65], [13, 10]), ([35, 32, 99, 50], [13, 10]),
      ([66], [13, 10])] (by decide)

/-! ## Accesses inside the buffer -/

/-- When a line terminator stands at an index `e` at or after `p`, the scan from
`p` stops at or before `e` without leaving the buffer. -/
theorem scan_stops_of_line_end {buf : List Nat} {p e t : Nat} (hpe : p ≤ e)
    (ht : buf[e]? = some t) (htl : IS_LINE_END t = true) :
    ∃ q i, ScanStops buf p 0 q i ∧ q ≤ e := by
  have hex : ∃ n, ∃ c, buf[p + n]? = some c ∧ IS_LINE_END c = true :=
    ⟨e - p, t, by rw [show p + (e - p) = e by omega]; exact ht, htl⟩
  classical
  have hn : ∃ c, buf[p + Nat.find hex]? = some c ∧ IS_LINE_END c = true := Nat.find_spec hex
  have hne : Nat.find hex ≤ e - p :=
    Nat.find_min' hex ⟨t, by rw [show p + (e - p) = e by omega]; exact ht, htl⟩
  have hmin : ∀ m, m < Nat.find hex → ¬ ∃ c, buf[p + m]? = some c ∧ IS_LINE_END c = true :=
    fun m hm => Nat.find_min hex hm
  generalize Nat.find hex = n at hn hne hmin
  obtain ⟨d, hd, hdl⟩ := hn
  have hlen := lt_length_of_getElem? hd
  have hnl : ∀ y, p ≤ y → y < p + n → ∃ c, buf[y]? = some c ∧ IS_LINE_END c = false := by
    intro y hy1 hy2
    have hy : y < buf.length := by omega
    refine ⟨buf[y], List.getElem?_eq_getElem hy, ?_⟩
    cases hyl : IS_LINE_END buf[y] with
    | false => rfl
    | true =>
      exfalso
      apply hmin (y - p) (by omega)
      refine ⟨buf[y], ?_, hyl⟩
      rw [show p + (y - p) = y by omega]
      exact List.getElem?_eq_getElem hy
  by_cases hshort : n ≤ MAX_LINE_SIZE
  · exact ⟨p + n, n, ⟨by omega, by omega, fun _ => by omega, hnl, d, hd, Or.inl hdl⟩,
      by omega⟩
  · have hq : p + (MAX_LINE_SIZE + 1) < buf.length := by omega
    exact ⟨p + (MAX_LINE_SIZE + 1), MAX_LINE_SIZE + 1,
      ⟨by omega, by omega, fun _ => le_refl _, fun y hy1 hy2 => hnl y hy1 (by omega),
        _, List.getElem?_eq_getElem hq, Or.inr (by omega)⟩, by omega⟩

/-- On a terminated buffer the skip loop stops at or before the end marker. -/
theorem skips_of_terminated {buf : List Nat} {k : Nat} :
    ∀ (n p : Nat), k - p ≤ n → Terminated buf p k →
      ∃ k2 o, SkipsTo buf p k2 o ∧ k2 ≤ k := by
  intro n
  induction n with
  | zero =>
    intro p hn ⟨h1, h2, _⟩
    have hpk : p = k := by omega
    subst hpk
    exact ⟨p, false, SkipsTo.stop h2 (by decide) (by decide), le_refl _⟩
  | succ n ih =>
    intro p hn ⟨h1, h2, h3⟩
    by_cases hpk : p = k
    · subst hpk
      exact ⟨p, false, SkipsTo.stop h2 (by decide) (by decide), le_refl _⟩
    · have hlt : p < k := by omega
      obtain ⟨t, ht, htl⟩ := h3 hlt
      have hp : p < buf.length := by
        have := lt_length_of_getElem? ht
        omega
      have hb : buf[p]? = some buf[p] := List.getElem?_eq_getElem hp
      cases hl : IS_LINE_END buf[p] with
      | true =>
        obtain ⟨k2, o, hs, hk2⟩ := ih (p + 1) (by omega)
          ⟨by omega, h2, fun _ => ⟨t, ht, htl⟩⟩
        exact ⟨k2, o, SkipsTo.line_end hb hl hs, hk2⟩
      | false =>
        cases hcm : IS_COMMENT buf[p] with
        | false => exact ⟨p, false, SkipsTo.stop hb hl hcm, by omega⟩
        | true =>
          obtain ⟨q, i, hsc, hq⟩ := scan_stops_of_line_end (show p ≤ k - 1 by omega) ht htl
          have hpq := hsc.lt_of_not_line_end hb hl
          by_cases hi : i ≤ MAX_LINE_SIZE
          · obtain ⟨k2, o, hs, hk2⟩ := ih q (by omega)
              ⟨by omega, h2, fun _ => ⟨t, ht, htl⟩⟩
            exact ⟨k2, o, SkipsTo.comment hb hl hcm hsc hi hs, hk2⟩
          · exact ⟨q, true, SkipsTo.overflow hb hl hcm hsc (by omega), by omega⟩

/-- On a terminated buffer a call stays inside the buffer, and a returned line
leaves the buffer terminated for the next call. -/
theorem script_next_line_of_terminated {buf : List Nat} {c k : Nat}
    (h : Terminated buf c k) :
    script_next_line buf c ≠ .fault ∧
      ∀ b1 c1 s, script_next_line buf c = .line b1 c1 s → Terminated b1 c1 k := by
  obtain ⟨k2, o, hs, hk2⟩ := skips_of_terminated (k - c) c (le_refl _) h
  obtain ⟨h1, h2, h3⟩ := h
  have hnull : ∀ b1 p, script_next_line buf c = .file_end b1 c p →
      script_next_line buf c ≠ .fault ∧
        ∀ b2 c1 s, script_next_line buf c = .line b2 c1 s → Terminated b2 c1 k := by
    intro b1 p hfe
    rw [hfe]
    exact ⟨by simp, fun _ _ _ hc => by cases hc⟩
  cases o with
  | true => exact hnull _ _ (script_next_line_file_end hs (by simp))
  | false =>
    have hk2l := hs.lt_length
    obtain ⟨x, hx⟩ : ∃ x, buf[k2]? = some x := ⟨_, List.getElem?_eq_getElem hk2l⟩
    cases hfe : IS_FILE_END x with
    | true => exact hnull _ _ (script_next_line_file_end hs (fun _ => ⟨_, hx, hfe⟩))
    | false =>
      have hne : k2 ≠ k := by
        intro hkk
        rw [hkk, h2] at hx
        simp only [Option.some.injEq] at hx
        rw [← hx] at hfe
        simp [IS_FILE_END] at hfe
      have hlt : c < k := by have := hs.le; omega
      obtain ⟨t, ht, htl⟩ := h3 hlt
      obtain ⟨q, i, hsc, hq⟩ := scan_stops_of_line_end (show k2 ≤ k - 1 by omega) ht htl
      by_cases hi : i ≤ MAX_LINE_SIZE
      · have hcall := script_next_line_line hs hx hfe hsc hi
        rw [hcall]
        refine ⟨by simp, ?_⟩
        intro b1 c1 s heq
        simp only [Outcome.line.injEq] at heq
        obtain ⟨rfl, rfl, rfl⟩ := heq
        refine ⟨by omega, ?_, fun hlt2 => ⟨t, ?_, htl⟩⟩
        · rw [List.getElem?_set_ne (by omega)]
          exact h2
        · rw [List.getElem?_set_ne (by omega)]
          exact ht
      · have hcall := script_next_line_too_long hs hx hfe hsc (by omega)
        rw [hcall]
        exact ⟨by simp, fun _ _ _ hc => by cases hc⟩

/-- On a terminated buffer the loop of `do_script` returns. -/
theorem script_loop_of_terminated (run_command : List Nat → Int) {k : Nat} :
    ∀ (f : Nat) (buf : List Nat) (c : Nat) (ret : Int), Terminated buf c k →
      buf.length < f + c → ∃ r, (script_loop run_command f buf c ret).1 = .returned r := by
  intro f
  induction f with
  | zero =>
    intro buf c ret h hf
    have := lt_length_of_getElem? h.2.1
    have := h.1
    omega
  | succ f ih =>
    intro buf c ret h hf
    obtain ⟨hnf, hnext⟩ := script_next_line_of_terminated h
    rcases script_next_line_cases buf c with ⟨s, q, i, x, h1, _, _, h4, _, h6⟩ |
      ⟨_, _, _, _, h6⟩ | ⟨_, _, _, _, _, _, _, _, _, h6⟩ | h6
    · rw [script_loop, h6]
      dsimp only
      by_cases hr : run_command (c_string (buf.set q 0) s) ≠ 0
      · rw [if_pos hr]
        exact ⟨_, rfl⟩
      · rw [if_neg hr]
        have := h1.le
        have := h4.1
        exact ih _ _ _ (hnext _ _ _ h6) (by simp only [List.length_set]; omega)
    · rw [script_loop, h6]
      exact ⟨_, rfl⟩
    · rw [script_loop, h6]
      exact ⟨_, rfl⟩
    · exact absurd h6 hnf

/-- The cursor stays within the length of the buffer. -/
theorem script_cursors_le (run_command : List Nat → Int) :
    ∀ (f : Nat) (buf : List Nat) (c : Nat), c ≤ buf.length →
      ∀ x ∈ script_cursors run_command f buf c, x ≤ buf.length := by
  intro f
  induction f with
  | zero => intro buf c _ x hx; simp [script_cursors] at hx
  | succ f ih =>
    intro buf c hc x hx
    rcases script_next_line_cases buf c with ⟨s, q, i, y, h1, _, _, h4, _, h6⟩ |
      ⟨_, _, _, _, h6⟩ | ⟨_, _, _, _, _, _, _, _, _, h6⟩ | h6
    · rw [script_cursors, h6] at hx
      dsimp only at hx
      have hq := h4.scan_lt_length
      by_cases hr : run_command (c_string (buf.set q 0) s) ≠ 0
      · rw [if_pos hr] at hx
        simp only [List.mem_singleton] at hx
        omega
      · rw [if_neg hr] at hx
        simp only [List.mem_cons] at hx
        rcases hx with hx | hx
        · omega
        · have := ih (buf.set q 0) (q + 1) (by simp only [List.length_set]; omega) x hx
          simpa using this
    · rw [script_cursors, h6] at hx
      simp only [List.mem_singleton] at hx
      omega
    · rw [script_cursors, h6] at hx
      simp only [List.mem_singleton] at hx
      omega
    · rw [script_cursors, h6] at hx
      simp at hx

theorem SkipsTo.exists_not_line_end {buf : List Nat} {p k : Nat} {o : Bool}
    (h : SkipsTo buf p k o) : ∃ (x c : Nat), buf[x]? = some c ∧ IS_LINE_END c = false := by
  induction h with
  | stop hb hl _ => exact ⟨_, _, hb, hl⟩
  | line_end _ _ _ ih => exact ih
  | comment hb hl _ _ _ _ _ => exact ⟨_, _, hb, hl⟩
  | overflow hb hl _ _ _ => exact ⟨_, _, hb, hl⟩

/-- On a buffer of line terminators only, the skip loop runs off the end. -/
theorem script_next_line_fault_of_line_ends {buf : List Nat}
    (h : ∀ (x c : Nat), buf[x]? = some c → IS_LINE_END c = true) (cur : Nat) :
    script_next_line buf cur = .fault := by
  have hno : ∀ p k o, ¬ SkipsTo buf p k o := by
    intro p k o hs
    obtain ⟨x, c, hc, hl⟩ := hs.exists_not_line_end
    rw [h x c hc] at hl
    cases hl
  rcases script_next_line_cases buf cur with ⟨_, _, _, _, h1, _⟩ |
    ⟨_, _, h1, _⟩ | ⟨_, _, _, _, h1, _⟩ | h6
  · exact absurd h1 (hno _ _ _)
  · exact absurd h1 (hno _ _ _)
  · exact absurd h1 (hno _ _ _)
  · exact h6

theorem do_script_status_eq_loop (simple_strtoul : List Nat → Nat) (mem : Nat → Nat)
    (run_command : List Nat → Int) (argc : Int) (argv : Nat → Option (List Nat))
    (arg : List Nat) (hargc : argc = 2) (harg : argv 1 = some arg)
    (haddr : simple_strtoul arg ≠ 0) :
    (do_script false simple_strtoul true mem run_command argc argv).status =
      (script_loop run_command (SCRIPT_FILE_MAX_SIZE + 1)
        (memcpy mem (simple_strtoul arg)) 0 0).1 := by
  rw [do_script_eq_loop simple_strtoul mem run_command argc argv arg hargc harg haddr,
    memcpy_length]

theorem script_loop_fault (run_command : List Nat → Int) (f : Nat) {buf : List Nat} {c : Nat}
    (ret : Int) (h : script_next_line buf c = .fault) :
    (script_loop run_command (f + 1) buf c ret).1 = .fault := by
  rw [script_loop, h]

theorem memcpy_line_feeds_fault (addr : Nat) :
    script_next_line (memcpy (fun _ => 10) addr) 0 = .fault := by
  apply script_next_line_fault_of_line_ends
  intro x c hc
  have hx : x < SCRIPT_FILE_MAX_SIZE := by
    have := lt_length_of_getElem? hc
    rwa [memcpy_length] at this
  rw [memcpy_getElem? _ _ _ hx] at hc
  cases hc
  rfl

theorem memcpy_mem_of_getElem? (sm : List Nat) (base x : Nat) (hx : x < sm.length)
    (hlen : sm.length ≤ SCRIPT_FILE_MAX_SIZE) :
    (memcpy (mem_of sm base) base)[x]? = sm[x]? := by
  rw [memcpy_getElem? _ _ _ (by omega)]
  simp [mem_of, List.getElem?_eq_getElem hx]

/-- C5 as stated fails: on a scratch buffer of 12288 line-feed bytes no line is
yielded, so every yielded line executes with code zero, but the first call of
`script_next_line` runs past the end of the buffer and `do_script` does not
return zero. -/
theorem do_script_all_succeed_counterexample :
    tokenize (memcpy (fun _ => 10) 1) 0 = ([], .fault) ∧
      (∀ x ∈ (tokenize (memcpy (fun _ => 10) 1) 0).1, (fun _ => (0 : Int)) x = 0) ∧
      (do_script false (fun _ => 1) true (fun _ => 10) (fun _ => 0) 2
        (fun _ => some [49])).status ≠ .returned 0 := by
  refine ⟨?_, fun _ _ => rfl, ?_⟩
  · have hf := memcpy_line_feeds_fault 1
    unfold tokenize
    rw [tokenize_loop_succ_null _ (by rw [hf]; simp), hf]
  · have h : (do_script false (fun _ => 1) true (fun _ => 10) (fun _ => 0) 2
        (fun _ => some [49])).status = .fault :=
      (do_script_status_eq_loop (fun _ => 1) (fun _ => 10) (fun _ => 0) 2
        (fun _ => some [49]) [49] rfl rfl (by decide)).trans
        (script_loop_fault _ _ _ (memcpy_line_feeds_fault 1))
    rw [h]
    intro hc
    cases hc

/-- C8 as stated fails: on a scratch buffer of 12288 line-feed bytes the first
call of `script_next_line` made by `do_script` reads the bytes at the indices
0 .. 12287 and then the byte at index 12288, outside the buffer. -/
theorem do_script_reads_past_buffer_counterexample :
    (do_script false (fun _ => 1) true (fun _ => 10) (fun _ => 0) 2
      (fun _ => some [49])).status = .fault :=
  (do_script_status_eq_loop (fun _ => 1) (fun _ => 10) (fun _ => 0) 2 (fun _ => some [49]) [49]
    rfl rfl (by decide)).trans (script_loop_fault _ _ _ (memcpy_line_feeds_fault 1))

/-! ## The skip loop on its way -/

theorem SkipsOver.then_skips {buf : List Nat} {c p : Nat} (h : SkipsOver buf c p) :
    ∀ {k : Nat} {o : Bool}, SkipsTo buf p k o → SkipsTo buf c k o := by
  induction h with
  | here => intro k o hs; exact hs
  | line_end hb hl _ ih => intro k o hs; exact SkipsTo.line_end hb hl (ih hs)
  | comment hb hl hcm hsc hi _ ih =>
    intro k o hs
    exact SkipsTo.comment hb hl hcm hsc hi (ih hs)

/-- The skip loop is deterministic: a run that stops at `k` passes every index
the loop arrives at. -/
theorem SkipsOver.skips_from {buf : List Nat} {c p : Nat} (h : SkipsOver buf c p) :
    ∀ {k : Nat} {o : Bool}, SkipsTo buf c k o → SkipsTo buf p k o := by
  induction h with
  | here => intro k o hs; exact hs
  | @line_end p k2 c hb hl _ ih =>
    intro k o hs
    apply ih
    cases hs with
    | stop hb2 hl2 _ => rw [hb] at hb2; cases hb2; rw [hl] at hl2; cases hl2
    | line_end _ _ hs2 => exact hs2
    | comment hb2 hl2 _ _ _ _ => rw [hb] at hb2; cases hb2; rw [hl] at hl2; cases hl2
    | overflow hb2 hl2 _ _ _ => rw [hb] at hb2; cases hb2; rw [hl] at hl2; cases hl2
  | @comment p q i k2 c hb hl hcm hsc hi _ ih =>
    intro k o hs
    apply ih
    cases hs with
    | stop hb2 _ hcm2 => rw [hb] at hb2; cases hb2; rw [hcm] at hcm2; cases hcm2
    | line_end hb2 hl2 _ => rw [hb] at hb2; cases hb2; rw [hl] at hl2; cases hl2
    | comment _ _ _ hsc2 _ hs2 =>
      obtain ⟨rfl, rfl⟩ := hsc.unique hsc2
      exact hs2
    | overflow _ _ _ hsc2 hi2 =>
      obtain ⟨rfl, rfl⟩ := hsc.unique hsc2
      omega

theorem SkipsOver.over_le {buf : List Nat} {c p : Nat} (h : SkipsOver buf c p) : c ≤ p := by
  induction h with
  | here => exact le_refl _
  | line_end _ _ _ ih => omega
  | comment hb hl _ hsc _ _ ih =>
    have := hsc.lt_of_not_line_end hb hl
    omega

theorem SkipsOver.trans {buf : List Nat} {c p r : Nat} (h : SkipsOver buf c p)
    (h2 : SkipsOver buf p r) : SkipsOver buf c r := by
  induction h with
  | here => exact h2
  | line_end hb hl _ ih => exact SkipsOver.line_end hb hl (ih h2)
  | comment hb hl hcm hsc hi _ ih => exact SkipsOver.comment hb hl hcm hsc hi (ih h2)

/-- The skip loop gives the same result from every index it arrives at. -/
theorem skip_loop_eq_of_skips_over {buf : List Nat} {c p : Nat} (h : SkipsOver buf c p) :
    skip_loop (buf.length + 1) buf c = skip_loop (buf.length + 1) buf p := by
  cases hp : skip_loop (buf.length + 1) buf p with
  | stop b1 k =>
    obtain ⟨o, ho, rfl⟩ := (skip_loop_iff buf b1 p k).1 hp
    exact (skip_loop_iff buf _ c k).2 ⟨o, h.then_skips ho, rfl⟩
  | timeout => exact absurd hp (skip_loop_ne_timeout _ _ _ (by omega) (by omega))
  | fault =>
    cases hc : skip_loop (buf.length + 1) buf c with
    | stop b1 k =>
      obtain ⟨o, ho, rfl⟩ := (skip_loop_iff buf b1 c k).1 hc
      rw [(skip_loop_iff buf _ p k).2 ⟨o, h.skips_from ho, rfl⟩] at hp
      cases hp
    | timeout => exact absurd hc (skip_loop_ne_timeout _ _ _ (by omega) (by omega))
    | fault => rfl

/-- A skip loop left by a comment overflow stands 8001 bytes after the start of
a comment that it arrived at. -/
theorem SkipsTo.overflow_inv {buf : List Nat} {c k : Nat} {o : Bool} (h : SkipsTo buf c k o) :
    o = true → ∃ p, SkipsOver buf c p ∧ buf[p]? = some SCRIPT_FILE_COMMENT ∧
      ScanStops buf p 0 k (MAX_LINE_SIZE + 1) := by
  induction h with
  | stop _ _ _ => intro hf; cases hf
  | line_end hb hl _ ih =>
    intro ho
    obtain ⟨p, hp, hrest⟩ := ih ho
    exact ⟨p, SkipsOver.line_end hb hl hp, hrest⟩
  | comment hb hl hcm hsc hi _ ih =>
    intro ho
    obtain ⟨p, hp, hrest⟩ := ih ho
    exact ⟨p, SkipsOver.comment hb hl hcm hsc hi hp, hrest⟩
  | @overflow p q i c hb hl hcm hsc hi =>
    intro _
    have hpq := hsc.lt_of_not_line_end hb hl
    have hi2 : i = MAX_LINE_SIZE + 1 := by
      have := hsc.2.2.1 hpq
      omega
    subst hi2
    refine ⟨p, SkipsOver.here, ?_, hsc⟩
    simp only [IS_COMMENT, beq_iff_eq] at hcm
    rw [hb, hcm]

/-- The byte on which the `break` of line 50 leaves the skip loop. -/
theorem SkipsTo.stop_byte {buf : List Nat} {c k : Nat} {o : Bool} (h : SkipsTo buf c k o) :
    o = false → ∃ x, buf[k]? = some x ∧ IS_LINE_END x = false ∧ IS_COMMENT x = false := by
  induction h with
  | stop hb hl hc => intro _; exact ⟨_, hb, hl, hc⟩
  | line_end _ _ _ ih => exact ih
  | comment _ _ _ _ _ _ ih => exact ih
  | overflow _ _ _ _ _ => intro hf; cases hf

/-- A skip loop left by the `break` of line 50 at `k` has arrived at `k`. -/
theorem SkipsTo.skips_over {buf : List Nat} {c k : Nat} {o : Bool} (h : SkipsTo buf c k o) :
    o = false → SkipsOver buf c k := by
  induction h with
  | stop _ _ _ => intro _; exact SkipsOver.here
  | line_end hb hl _ ih => intro ho; exact SkipsOver.line_end hb hl (ih ho)
  | comment hb hl hcm hsc hi _ ih =>
    intro ho; exact SkipsOver.comment hb hl hcm hsc hi (ih ho)
  | overflow _ _ _ _ _ => intro hf; cases hf

/-! ## Frame and progress of one call -/

/-- C15: with `CONFIG_FIT_SIGNATURE` defined, `do_script` returns
`CMD_RET_FAILURE` for every argument list, every memory content and every
executor, submits no line and does not call `calloc`: the rejection comes before
the argument check and before any parsing. -/
theorem do_script_fit_signature (simple_strtoul : List Nat → Nat) (calloc_ok : Bool)
    (mem : Nat → Nat) (run_command : List Nat → Int) (argc : Int)
    (argv : Nat → Option (List Nat)) :
    do_script true simple_strtoul calloc_ok mem run_command argc argv =
      ⟨.returned CMD_RET_FAILURE, [], false⟩ := by
  unfold do_script
  rw [if_pos rfl]

/-- C17: when `script_next_line` yields a line, the span from the returned line
start `s` to the overwritten terminator has a length `n` between 1 and
`MAX_LINE_SIZE`, holds no line terminator, starts with a byte that is neither the
comment marker nor the end marker, and is followed by the NUL written over the
terminator. -/
theorem yielded_line_span (buf b1 : List Nat) (cur c1 s : Nat)
    (h : script_next_line buf cur = .line b1 c1 s) :
    ∃ n, c1 = s + n + 1 ∧ 1 ≤ n ∧ n ≤ MAX_LINE_SIZE ∧ b1[s + n]? = some 0 ∧
      (∀ j, j < n → ∃ c, b1[s + j]? = some c ∧ IS_LINE_END c = false) ∧
      ∃ x, b1[s]? = some x ∧ x ≠ SCRIPT_FILE_COMMENT ∧ x ≠ SCRIPT_FILE_END := by
  obtain ⟨q, i, x, rfl, rfl, hs, hx, hfe, hsc, hi⟩ := script_next_line_line_inv h
  obtain ⟨y, hy, hyl, hycm⟩ := hs.stop_byte rfl
  rw [hx] at hy
  cases hy
  have hsq := hsc.lt_of_not_line_end hx hyl
  have hq := hsc.scan_lt_length
  obtain ⟨h1, h2, _, h4, _⟩ := hsc
  refine ⟨q - s, by omega, by omega, by omega, ?_, ?_, x, ?_, ?_, ?_⟩
  · rw [show s + (q - s) = q by omega]
    simp [List.getElem?_set, hq]
  · intro j hj
    obtain ⟨c, hc, hcl⟩ := h4 (s + j) (by omega) (by omega)
    exact ⟨c, by rw [List.getElem?_set_ne (by omega)]; exact hc, hcl⟩
  · rw [List.getElem?_set_ne (by omega)]
    exact hx
  · intro hxe
    simp [IS_COMMENT, hxe] at hycm
  · intro hxe
    simp [IS_FILE_END, hxe] at hfe

/-- C17 on the buffer `AB`, line feed, end marker. -/
theorem yielded_line_span_witness :
    ∃ n, 3 = 0 + n + 1 ∧ 1 ≤ n ∧ n ≤ MAX_LINE_SIZE ∧ [65, 66, 0, 37][0 + n]? = some 0 ∧
      (∀ j, j < n → ∃ c, [65, 66, 0, 37][0 + j]? = some c ∧ IS_LINE_END c = false) ∧
      ∃ x, [65, 66, 0, 37][0]? = some x ∧ x ≠ SCRIPT_FILE_COMMENT ∧ x ≠ SCRIPT_FILE_END :=
  yielded_line_span [65, 66, 10, 37] [65, 66, 0, 37] 0 3 0 (by decide)

/-- C13: a call of `script_next_line` changes at most one byte. A yielded line
that starts at `s` with length `n` has its terminator at `s + n` replaced by
NUL, and the new cursor is `s + n + 1`. A returned `NULL` leaves the buffer
unchanged, except after a comment overflow, where the byte 8001 positions after
the start of the comment is set to the end marker. Every other byte is kept. -/
theorem script_next_line_frame (buf : List Nat) (cur : Nat) (o : Outcome)
    (h : script_next_line buf cur = o) :
    (∀ b1 c1 s, o = .line b1 c1 s →
      ∃ n t, c1 = s + n + 1 ∧ buf[s + n]? = some t ∧ IS_LINE_END t = true ∧
        (∀ j, j < n → ∃ c, buf[s + j]? = some c ∧ IS_LINE_END c = false) ∧
        b1 = buf.set (s + n) 0 ∧ b1.length = buf.length ∧
        ∀ x, x ≠ s + n → b1[x]? = buf[x]?) ∧
    (∀ b1 c1 k, o = .file_end b1 c1 k →
      (b1 = buf ∧ buf[k]? = some SCRIPT_FILE_END) ∨
      (∃ p, SkipsOver buf cur p ∧ buf[p]? = some SCRIPT_FILE_COMMENT ∧
        k = p + MAX_LINE_SIZE + 1 ∧
        (∀ j, j ≤ MAX_LINE_SIZE → ∃ c, buf[p + j]? = some c ∧ IS_LINE_END c = false) ∧
        b1 = buf.set k SCRIPT_FILE_END ∧ b1.length = buf.length ∧
        ∀ x, x ≠ k → b1[x]? = buf[x]?)) ∧
    (∀ b1 c1 s, o = .too_long b1 c1 s → b1 = buf) := by
  subst h
  refine ⟨?_, ?_, ?_⟩
  · intro b1 c1 s h
    obtain ⟨q, i, x, rfl, rfl, hs, hx, hfe, hsc, hi⟩ := script_next_line_line_inv h
    obtain ⟨t, ht, htl⟩ := hsc.line_end_of_le hi
    obtain ⟨h1, h2, _, h4, _⟩ := hsc
    refine ⟨q - s, t, by omega, ?_, htl, ?_, ?_, by simp, ?_⟩
    · rw [show s + (q - s) = q by omega]; exact ht
    · intro j hj
      exact h4 (s + j) (by omega) (by omega)
    · rw [show s + (q - s) = q by omega]
    · intro x hx
      rw [show s + (q - s) = q by omega] at hx
      exact List.getElem?_set_ne (fun h => hx h.symm)
  · intro b1 c1 k h
    obtain ⟨_, o, rfl, hs, hend⟩ := script_next_line_file_end_inv h
    cases o with
    | false =>
      left
      obtain ⟨x, hx, hfe⟩ := hend rfl
      simp only [IS_FILE_END, beq_iff_eq] at hfe
      exact ⟨by simp [skip_buf], by rw [hx, hfe]⟩
    | true =>
      right
      obtain ⟨p, hp, hcm, hsc⟩ := hs.overflow_inv rfl
      obtain ⟨h1, h2, _, h4, _⟩ := hsc
      refine ⟨p, hp, hcm, by omega, ?_, by simp [skip_buf], by simp [skip_buf], ?_⟩
      · intro j hj
        exact h4 (p + j) (by omega) (by omega)
      · intro x hx
        simp only [skip_buf, if_true]
        exact List.getElem?_set_ne (fun h => hx h.symm)
  · intro b1 c1 s h
    exact (script_next_line_too_long_inv h).2.1

/-- C13 on the buffer `AB`, line feed, end marker: the line feed becomes NUL. -/
theorem script_next_line_frame_witness :
    ∃ n t, 3 = 0 + n + 1 ∧ [65, 66, 10, 37][0 + n]? = some t ∧ IS_LINE_END t = true ∧
      (∀ j, j < n → ∃ c, [65, 66, 10, 37][0 + j]? = some c ∧ IS_LINE_END c = false) ∧
      [65, 66, 0, 37] = [65, 66, 10, 37].set (0 + n) 0 ∧
      [65, 66, 0, 37].length = [65, 66, 10, 37].length ∧
      ∀ x, x ≠ 0 + n → [65, 66, 0, 37][x]? = [65, 66, 10, 37][x]? :=
  (script_next_line_frame [65, 66, 10, 37] 0 (.line [65, 66, 0, 37] 3 0) (by decide)).1
    [65, 66, 0, 37] 3 0 rfl

/-- Every yielded line uses at least two bytes of the buffer. -/
theorem tokenize_loop_length_le :
    ∀ (f : Nat) (buf : List Nat) (c : Nat), c ≤ buf.length →
      c + 2 * (tokenize_loop f buf c).1.length ≤ buf.length := by
  intro f
  induction f with
  | zero => intro buf c hc; simpa [tokenize_loop] using hc
  | succ f ih =>
    intro buf c hc
    rcases script_next_line_cases buf c with ⟨s, q, i, x, h1, hx, _, h4, _, h6⟩ |
      ⟨_, _, _, _, h6⟩ | ⟨_, _, _, _, _, _, _, _, _, h6⟩ | h6
    · rw [tokenize_loop_succ_line f h6]
      obtain ⟨y, hy, hyl, _⟩ := h1.stop_byte rfl
      have hsq := h4.lt_of_not_line_end hy hyl
      have hq := h4.scan_lt_length
      have hcs := h1.le
      have := ih (buf.set q 0) (q + 1) (by simp only [List.length_set]; omega)
      simp only [List.length_set] at this
      simp only [List.length_cons]
      omega
    all_goals (rw [tokenize_loop_succ_null f (by rw [h6]; simp)]; simpa using hc)

/-- The loop of `do_script` ends before its fuel does. -/
theorem script_loop_ne_timeout (run_command : List Nat → Int) :
    ∀ (f : Nat) (buf : List Nat) (c : Nat) (ret : Int), buf.length < f + c → 0 < f →
      (script_loop run_command f buf c ret).1 ≠ .timeout := by
  intro f
  induction f with
  | zero => intro buf c ret _ h0; omega
  | succ f ih =>
    intro buf c ret hf _
    rcases script_next_line_cases buf c with ⟨s, q, i, x, h1, _, _, h4, _, h6⟩ |
      ⟨_, _, _, _, h6⟩ | ⟨_, _, _, _, _, _, _, _, _, h6⟩ | h6
    · rw [script_loop, h6]
      dsimp only
      have := h1.le
      have := h4.1
      have := h4.scan_lt_length
      by_cases hr : run_command (c_string (buf.set q 0) s) ≠ 0
      · rw [if_pos hr]; simp
      · rw [if_neg hr]
        exact ih _ _ _ (by simp only [List.length_set]; omega) (by omega)
    all_goals (rw [script_loop, h6]; simp)

theorem do_script_ne_timeout (fit_signature : Bool) (simple_strtoul : List Nat → Nat)
    (calloc_ok : Bool) (mem : Nat → Nat) (run_command : List Nat → Int) (argc : Int)
    (argv : Nat → Option (List Nat)) :
    (do_script fit_signature simple_strtoul calloc_ok mem run_command argc argv).status ≠
      .timeout := by
  unfold do_script
  split
  · simp
  · split
    · simp
    · split
      · simp
      · split
        · simp
        · dsimp only
          apply script_loop_ne_timeout
          · rw [memcpy_length]; omega
          · omega

/-- C14: a call of `script_next_line` never moves the cursor back: a yielded line
moves it forward by at least 2, a returned `NULL` leaves it where it was. So a
buffer of `n` bytes yields at most `n / 2` lines, the repeated calls end within
the fuel `n + 1`, and the loop of `do_script` ends. -/
theorem cursor_advances (buf : List Nat) (cur : Nat) (o : Outcome)
    (h : script_next_line buf cur = o) :
    (∀ b1 c1 s, o = .line b1 c1 s → cur + 2 ≤ c1) ∧
    (∀ b1 c1 k, o = .file_end b1 c1 k → c1 = cur) ∧
    (∀ b1 c1 s, o = .too_long b1 c1 s → c1 = cur) ∧
    (tokenize buf 0).1.length ≤ buf.length / 2 ∧
    (tokenize buf 0).2 ≠ .timeout ∧
    (∀ (run_command : List Nat → Int) (ret : Int),
      (script_loop run_command (buf.length + 1) buf 0 ret).1 ≠ .timeout) ∧
    (∀ (fit_signature : Bool) (simple_strtoul : List Nat → Nat) (calloc_ok : Bool)
      (mem : Nat → Nat) (run_command : List Nat → Int) (argc : Int)
      (argv : Nat → Option (List Nat)),
      (do_script fit_signature simple_strtoul calloc_ok mem run_command argc argv).status ≠
        .timeout) := by
  subst h
  refine ⟨?_, ?_, ?_, ?_, tokenize_ne_timeout buf 0, ?_, ?_⟩
  · intro b1 c1 s h
    obtain ⟨q, i, x, rfl, rfl, hs, hx, _, hsc, _⟩ := script_next_line_line_inv h
    obtain ⟨y, hy, hyl, _⟩ := hs.stop_byte rfl
    have := hsc.lt_of_not_line_end hy hyl
    have := hs.le
    omega
  · intro b1 c1 k h
    exact (script_next_line_file_end_inv h).1
  · intro b1 c1 s h
    exact (script_next_line_too_long_inv h).1
  · have := tokenize_loop_length_le (buf.length + 1) buf 0 (Nat.zero_le _)
    unfold tokenize
    omega
  · intro run_command ret
    exact script_loop_ne_timeout run_command _ _ _ _ (by omega) (by omega)
  · exact do_script_ne_timeout

/-- C14 on the buffer `A`, line feed, end marker: the cursor moves from 0 to 2. -/
theorem cursor_advances_witness : 0 + 2 ≤ 2 :=
  (cursor_advances [65, 10, 37] 0 (.line [65, 0, 37] 2 0) (by decide)).1 [65, 0, 37] 2 0 rfl

/-! ## Comments -/

/-- A call yields the same line from every index its skip loop arrives at. -/
theorem script_next_line_line_iff_of_skips_over {buf : List Nat} {c p : Nat}
    (h : SkipsOver buf c p) (b1 : List Nat) (c1 s : Nat) :
    script_next_line buf c = .line b1 c1 s ↔ script_next_line buf p = .line b1 c1 s := by
  constructor
  · intro hl
    obtain ⟨q, i, x, rfl, rfl, hs, hx, hfe, hsc, hi⟩ := script_next_line_line_inv hl
    exact script_next_line_line (h.skips_from hs) hx hfe hsc hi
  · intro hl
    obtain ⟨q, i, x, rfl, rfl, hs, hx, hfe, hsc, hi⟩ := script_next_line_line_inv hl
    exact script_next_line_line (h.then_skips hs) hx hfe hsc hi

theorem IS_LINE_END_comment : IS_LINE_END SCRIPT_FILE_COMMENT = false := by decide

theorem IS_COMMENT_comment : IS_COMMENT SCRIPT_FILE_COMMENT = true := by decide

/-- C11: when the skip loop of a call arrives at a comment that starts at index
`p`: if none of the bytes `p .. p + MAX_LINE_SIZE` is a line terminator and the
byte at `p + MAX_LINE_SIZE + 1` lies in the buffer, the call overwrites that byte
with the end marker and returns `NULL` with the cursor unchanged, whatever
follows; if the comment has `n ≤ MAX_LINE_SIZE` bytes and is followed by a line
terminator, the skip loop goes on after that terminator: it gives the same
result as a skip loop entered there, and the call yields the same line as a call
entered there. -/
theorem comment_overflow_ends_script (buf : List Nat) (cur p : Nat)
    (hr : SkipsOver buf cur p) (hc : buf[p]? = some SCRIPT_FILE_COMMENT) :
    ((∀ k c, k ≤ MAX_LINE_SIZE → buf[p + k]? = some c → IS_LINE_END c = false) →
      p + MAX_LINE_SIZE + 1 < buf.length →
      script_next_line buf cur =
        .file_end (buf.set (p + MAX_LINE_SIZE + 1) SCRIPT_FILE_END) cur
          (p + MAX_LINE_SIZE + 1)) ∧
    (∀ n t, n ≤ MAX_LINE_SIZE →
      (∀ j c, j < n → buf[p + j]? = some c → IS_LINE_END c = false) →
      buf[p + n]? = some t → IS_LINE_END t = true →
      SkipsOver buf cur (p + n + 1) ∧
        skip_loop (buf.length + 1) buf cur = skip_loop (buf.length + 1) buf (p + n + 1) ∧
        ∀ b1 c1 s, script_next_line buf cur = .line b1 c1 s ↔
          script_next_line buf (p + n + 1) = .line b1 c1 s) := by
  constructor
  · intro hno hlen
    have hsc : ScanStops buf p 0 (p + MAX_LINE_SIZE + 1) (MAX_LINE_SIZE + 1) := by
      refine ⟨by omega, by omega, fun _ => le_refl _, ?_,
        buf[p + MAX_LINE_SIZE + 1], List.getElem?_eq_getElem hlen, Or.inr (by omega)⟩
      intro y hy1 hy2
      have hy : y < buf.length := by omega
      refine ⟨buf[y], List.getElem?_eq_getElem hy, ?_⟩
      apply hno (y - p) buf[y] (by omega)
      rw [show p + (y - p) = y by omega]
      exact List.getElem?_eq_getElem hy
    have hs := hr.then_skips
      (SkipsTo.overflow hc IS_LINE_END_comment IS_COMMENT_comment hsc (by omega))
    have h := script_next_line_file_end hs (by intro hf; cases hf)
    rw [h]
    simp [skip_buf]
  · intro n t hn hbody ht htl
    have hn0 : 0 < n := by
      by_contra h0
      have : n = 0 := by omega
      subst this
      rw [Nat.add_zero, hc] at ht
      cases ht
      rw [IS_LINE_END_comment] at htl
      cases htl
    have hq := lt_length_of_getElem? ht
    have hsc : ScanStops buf p 0 (p + n) n := by
      refine ⟨by omega, by omega, fun _ => by omega, ?_, t, ht, Or.inl htl⟩
      intro y hy1 hy2
      have hy : y < buf.length := by omega
      refine ⟨buf[y], List.getElem?_eq_getElem hy, ?_⟩
      apply hbody (y - p) buf[y] (by omega)
      rw [show p + (y - p) = y by omega]
      exact List.getElem?_eq_getElem hy
    have hover : SkipsOver buf cur (p + n + 1) :=
      hr.trans (SkipsOver.comment hc IS_LINE_END_comment IS_COMMENT_comment hsc hn
        (SkipsOver.line_end ht htl SkipsOver.here))
    exact ⟨hover, skip_loop_eq_of_skips_over hover,
      script_next_line_line_iff_of_skips_over hover⟩

theorem long_comment_buf_getElem? (k c : Nat) (hk : k ≤ MAX_LINE_SIZE)
    (hc : long_comment_buf[k]? = some c) : IS_LINE_END c = false := by
  unfold long_comment_buf at hc
  cases k with
  | zero =>
    rw [List.getElem?_cons_zero] at hc
    cases hc
    decide
  | succ k =>
    have hk2 : k < 8000 := by simp only [MAX_LINE_SIZE] at hk; omega
    rw [List.getElem?_cons_succ,
      List.getElem?_append_left (by rw [List.length_replicate]; exact hk2),
      List.getElem?_replicate, if_pos hk2] at hc
    cases hc
    decide

theorem long_comment_buf_length : long_comment_buf.length = 8006 := by
  unfold long_comment_buf
  rw [List.length_cons, List.length_append, List.length_replicate]
  rfl

/-- C11 on a buffer that starts with a comment of 8002 bytes, followed by the
line `A` and the end marker: the script ends at the comment. -/
theorem comment_overflow_ends_script_witness :
    script_next_line long_comment_buf 0 =
      .file_end (long_comment_buf.set (0 + MAX_LINE_SIZE + 1) SCRIPT_FILE_END) 0
        (0 + MAX_LINE_SIZE + 1) :=
  (comment_overflow_ends_script long_comment_buf 0 0 SkipsOver.here
    (by unfold long_comment_buf; exact List.getElem?_cons_zero)).1
    (fun k c hk hc => long_comment_buf_getElem? k c hk (by rwa [Nat.zero_add] at hc))
    (by rw [long_comment_buf_length]; decide)

/-! ## Buffers that end with a line terminator and the end marker -/

/-- On a terminated buffer the repeated calls stay inside the buffer. -/
theorem tokenize_loop_of_terminated {k : Nat} :
    ∀ (f : Nat) (buf : List Nat) (c : Nat), Terminated buf c k →
      (tokenize_loop f buf c).2 ≠ .fault := by
  intro f
  induction f with
  | zero => intro buf c _; simp [tokenize_loop]
  | succ f ih =>
    intro buf c h
    obtain ⟨hnf, hnext⟩ := script_next_line_of_terminated h
    rcases script_next_line_cases buf c with ⟨s, q, i, x, _, _, _, _, _, h6⟩ |
      ⟨_, _, _, _, h6⟩ | ⟨_, _, _, _, _, _, _, _, _, h6⟩ | h6
    · rw [tokenize_loop_succ_line f h6]
      exact ih _ _ (hnext _ _ _ h6)
    · rw [tokenize_loop_succ_null f (by rw [h6]; simp), h6]; simp
    · rw [tokenize_loop_succ_null f (by rw [h6]; simp), h6]; simp
    · exact absurd h6 hnf

/-- On a terminated buffer the cursor stays at or before the end marker. -/
theorem script_cursors_le_of_terminated (run_command : List Nat → Int) {k : Nat} :
    ∀ (f : Nat) (buf : List Nat) (c : Nat), Terminated buf c k →
      ∀ x ∈ script_cursors run_command f buf c, x ≤ k := by
  intro f
  induction f with
  | zero => intro buf c _ x hx; simp [script_cursors] at hx
  | succ f ih =>
    intro buf c h x hx
    obtain ⟨_, hnext⟩ := script_next_line_of_terminated h
    rcases script_next_line_cases buf c with ⟨s, q, i, y, _, _, _, _, _, h6⟩ |
      ⟨_, _, _, _, h6⟩ | ⟨_, _, _, _, _, _, _, _, _, h6⟩ | h6
    · have hterm := hnext _ _ _ h6
      rw [script_cursors, h6] at hx
      dsimp only at hx
      by_cases hr : run_command (c_string (buf.set q 0) s) ≠ 0
      · rw [if_pos hr] at hx
        simp only [List.mem_singleton] at hx
        rw [hx]
        exact hterm.1
      · rw [if_neg hr] at hx
        simp only [List.mem_cons] at hx
        rcases hx with hx | hx
        · rw [hx]
          exact hterm.1
        · exact ih _ _ hterm x hx
    · rw [script_cursors, h6] at hx
      simp only [List.mem_singleton] at hx
      rw [hx]
      exact h.1
    · rw [script_cursors, h6] at hx
      simp only [List.mem_singleton] at hx
      rw [hx]
      exact h.1
    · rw [script_cursors, h6] at hx
      simp at hx

/-- C18: on a buffer of `n ≥ 2` bytes whose last two bytes are a line terminator
and the end marker, the repeated calls of `script_next_line` from cursor 0 never
access an index outside the buffer and end with a returned `NULL`; whatever the
executor, the loop of `do_script` returns, and the cursor is at most `n - 1`
after each of its calls. -/
theorem terminated_buffer_in_bounds (buf : List Nat) (n t : Nat) (hlen : buf.length = n)
    (hn : 2 ≤ n) (ht : buf[n - 2]? = some t) (htl : IS_LINE_END t = true)
    (hend : buf[n - 1]? = some SCRIPT_FILE_END) :
    (tokenize buf 0).2 ≠ .fault ∧ (tokenize buf 0).2.is_null = true ∧
      ∀ (run_command : List Nat → Int),
        (∃ r, (script_loop run_command (n + 1) buf 0 CMD_RET_SUCCESS).1 = .returned r) ∧
          ∀ c ∈ script_cursors run_command (n + 1) buf 0, c ≤ n - 1 := by
  have hterm : Terminated buf 0 (n - 1) :=
    ⟨Nat.zero_le _, hend, fun _ => ⟨t, by rw [show n - 1 - 1 = n - 2 by omega]; exact ht, htl⟩⟩
  have hnf : (tokenize buf 0).2 ≠ .fault := tokenize_loop_of_terminated _ _ _ hterm
  refine ⟨hnf, tokenize_is_null hnf, fun run_command => ⟨?_, ?_⟩⟩
  · exact script_loop_of_terminated run_command _ _ _ _ hterm (by omega)
  · exact script_cursors_le_of_terminated run_command _ _ _ hterm

/-- C18 on the buffer `A`, line feed, end marker. -/
theorem terminated_buffer_in_bounds_witness :
    (tokenize [65, 10, 37] 0).2 ≠ .fault ∧ (tokenize [65, 10, 37] 0).2.is_null = true ∧
      ∀ (run_command : List Nat → Int),
        (∃ r, (script_loop run_command (3 + 1) [65, 10, 37] 0 CMD_RET_SUCCESS).1 =
            .returned r) ∧
          ∀ c ∈ script_cursors run_command (3 + 1) [65, 10, 37] 0, c ≤ 3 - 1 :=
  terminated_buffer_in_bounds [65, 10, 37] 3 10 rfl (by decide) rfl (by decide) rfl

/-! ## Scripts without end marker in zeroed memory -/

theorem nul_script_length_cons (l : List Nat) (rest : List (List Nat)) (n : Nat) :
    (nul_script (l :: rest) n).length = l.length + 1 + (nul_script rest n).length := by
  show (l ++ (10 :: nul_script rest n)).length = _
  simp only [List.length_append, List.length_cons]
  omega

theorem nul_script_length_ge (lines : List (List Nat)) (n : Nat) :
    n + lines.length ≤ (nul_script lines n).length := by
  induction lines with
  | nil => simp [nul_script]
  | cons l rest ih =>
    rw [nul_script_length_cons, List.length_cons]
    omega

theorem nul_script_cons_getElem?_line (l : List Nat) (rest : List (List Nat)) (n j : Nat)
    (hj : j < l.length) : (nul_script (l :: rest) n)[j]? = some l[j] := by
  show (l ++ (10 :: nul_script rest n))[j]? = _
  rw [List.getElem?_append_left hj, List.getElem?_eq_getElem hj]

theorem nul_script_cons_getElem?_term (l : List Nat) (rest : List (List Nat)) (n : Nat) :
    (nul_script (l :: rest) n)[l.length]? = some 10 := by
  show (l ++ (10 :: nul_script rest n))[l.length]? = _
  rw [List.getElem?_append_right (le_refl _), Nat.sub_self]
  simp

theorem nul_script_cons_getElem?_rest (l : List Nat) (rest : List (List Nat)) (n j : Nat) :
    (nul_script (l :: rest) n)[l.length + 1 + j]? = (nul_script rest n)[j]? := by
  show (l ++ (10 :: nul_script rest n))[l.length + 1 + j]? = _
  rw [List.getElem?_append_right (by omega),
    show l.length + 1 + j - l.length = j + 1 by omega, List.getElem?_cons_succ]

theorem command_lines_cons (l : List Nat) (rest : List (List Nat)) :
    command_lines (l :: rest) =
      if l[0]? = some SCRIPT_FILE_COMMENT then command_lines rest
      else l :: command_lines rest := by
  simp only [command_lines, List.filter_cons, bne_iff_ne, ne_eq,
    List.head?_eq_getElem?, ite_not]

/-- Tokenization of a buffer that holds, from index `P` on, well-formed lines
ended by line feeds and then more than `MAX_LINE_SIZE + 1` NUL bytes, called
with a cursor `c` from which the skip loop reaches `P`: the command lines are
yielded, and the NUL bytes are scanned as a line that is too long. -/
theorem tokenize_loop_nul_script (n : Nat) (hn : MAX_LINE_SIZE + 2 ≤ n) :
    ∀ (lines : List (List Nat)) (buf : List Nat) (P c f : Nat),
      (∀ j, j < (nul_script lines n).length → buf[P + j]? = (nul_script lines n)[j]?) →
      (∀ l ∈ lines, line_ok l = true) →
      (∀ k o, SkipsTo buf P k o → SkipsTo buf c k o) → lines.length < f →
      ∃ bf cf, tokenize_loop f buf c =
        (command_lines lines, .too_long bf cf (P + (nul_script lines n).length - n)) := by
  intro lines
  induction lines with
  | nil =>
    intro buf P c f hbuf _ hskip hf
    obtain ⟨f, rfl⟩ : ∃ g, f = g + 1 := ⟨f - 1, by omega⟩
    have hlen : (nul_script [] n).length = n := by simp [nul_script]
    have hz : ∀ j, j < n → buf[P + j]? = some 0 := by
      intro j hj
      rw [hbuf j (by rw [hlen]; exact hj)]
      show (List.replicate n 0)[j]? = _
      rw [List.getElem?_replicate, if_pos hj]
    have hb : buf[P]? = some 0 := hz 0 (by omega)
    have hs := hskip _ _ (SkipsTo.stop hb (by decide) (by decide))
    have hsc : ScanStops buf P 0 (P + (MAX_LINE_SIZE + 1)) (MAX_LINE_SIZE + 1) := by
      refine ⟨by omega, by omega, fun _ => le_refl _, ?_, 0, hz _ (by omega),
        Or.inr (by omega)⟩
      intro y hy1 hy2
      refine ⟨0, ?_, by decide⟩
      rw [show y = P + (y - P) by omega]
      exact hz _ (by omega)
    have h := script_next_line_too_long hs hb (by decide) hsc (by omega)
    refine ⟨buf, c, ?_⟩
    rw [tokenize_loop_succ_null f (by rw [h]; simp), h, hlen]
    simp [command_lines]
  | cons l rest ih =>
    intro buf P c f hbuf hok hskip hf
    obtain ⟨hL, hLmax, hlb, hl0⟩ := line_ok_spec (hok l (by simp))
    have htot := nul_script_length_cons l rest n
    have hline : ∀ j (hj : j < l.length), buf[P + j]? = some l[j] := fun j hj => by
      rw [hbuf j (by omega), nul_script_cons_getElem?_line l rest n j hj]
    have hterm : buf[P + l.length]? = some 10 := by
      rw [hbuf l.length (by omega), nul_script_cons_getElem?_term]
    have hrest : ∀ j, j < (nul_script rest n).length →
        buf[P + l.length + 1 + j]? = (nul_script rest n)[j]? := fun j hj => by
      rw [show P + l.length + 1 + j = P + (l.length + 1 + j) by omega,
        hbuf _ (by omega), nul_script_cons_getElem?_rest]
    have hb0 : buf[P]? = some l[0] := hline 0 hL
    have hsc : ScanStops buf P 0 (P + l.length) l.length := by
      refine ⟨by omega, by omega, fun _ => by omega, ?_, 10, hterm, Or.inl (by decide)⟩
      intro x hx1 hx2
      have hj : x - P < l.length := by omega
      refine ⟨l[x - P], ?_, (hlb _ hj).1⟩
      rw [← hline _ hj]
      congr 1
      omega
    have hge := nul_script_length_ge rest n
    have hidx : P + l.length + 1 + (nul_script rest n).length - n =
        P + (nul_script (l :: rest) n).length - n := by
      rw [htot]
      omega
    have hit0 : l[0]? = some l[0] := List.getElem?_eq_getElem hL
    rw [command_lines_cons]
    by_cases hcm : l[0]? = some SCRIPT_FILE_COMMENT
    · rw [if_pos hcm]
      have hcm2 : IS_COMMENT l[0] = true := by
        rw [hit0] at hcm
        simp only [Option.some.injEq] at hcm
        rw [hcm]
        decide
      have hskip2 : ∀ k o, SkipsTo buf (P + l.length + 1) k o → SkipsTo buf c k o := by
        intro k o h
        apply hskip
        exact SkipsTo.comment hb0 (hlb 0 hL).1 hcm2 hsc hLmax
          (SkipsTo.line_end hterm (by decide) h)
      obtain ⟨bf, cf, h⟩ := ih buf (P + l.length + 1) c f hrest
        (fun l2 h2 => hok l2 (by simp [h2])) hskip2 (by simp at hf; omega)
      exact ⟨bf, cf, by rw [h, hidx]⟩
    · rw [if_neg hcm]
      obtain ⟨f, rfl⟩ : ∃ g, f = g + 1 := ⟨f - 1, by omega⟩
      have hcm2 : IS_COMMENT l[0] = false := by
        rw [hit0] at hcm
        simp only [Option.some.injEq] at hcm
        simp only [IS_COMMENT, beq_eq_false_iff_ne, ne_eq]
        exact fun h => hcm h.symm
      have hfe : IS_FILE_END l[0] = false := by
        rw [hit0] at hl0
        simp only [ne_eq, Option.some.injEq] at hl0
        exact IS_FILE_END_eq_false hl0
      have hs := hskip _ _ (SkipsTo.stop hb0 (hlb 0 hL).1 hcm2)
      have hcall := script_next_line_line hs hb0 hfe hsc hLmax
      have hq := hsc.scan_lt_length
      have hset : ∀ y, y ≠ P + l.length → (buf.set (P + l.length) 0)[y]? = buf[y]? :=
        fun y hy => List.getElem?_set_ne (fun h => hy h.symm)
      have hstr : c_string (buf.set (P + l.length) 0) P = l := by
        apply c_string_segment
        · intro j hj
          rw [hset _ (by omega)]
          exact hline j hj
        · exact fun j hj => (hlb j hj).2
        · simp [List.getElem?_set, hq]
      obtain ⟨bf, cf, h⟩ := ih (buf.set (P + l.length) 0) (P + l.length + 1)
        (P + l.length + 1) f
        (fun j hj => by rw [hset _ (by omega)]; exact hrest j hj)
        (fun l2 h2 => hok l2 (by simp [h2])) (fun _ _ h => h) (by simp at hf; omega)
      refine ⟨bf, cf, ?_⟩
      rw [tokenize_loop_succ_line f hcall, h, hstr, hidx]

/-- C20: for well-formed lines, each followed by a line feed, and then at least
8002 NUL bytes and no end marker, the repeated calls of `script_next_line` from
cursor 0 yield exactly the lines that do not start with the comment marker, in
order, and then return `NULL` at line 63: the NUL bytes are scanned as a line
that is too long, by reads that all lie inside the buffer. -/
theorem tokenize_nul_script (lines : List (List Nat)) (n : Nat)
    (hok : ∀ l ∈ lines, line_ok l = true) (hn : MAX_LINE_SIZE + 2 ≤ n) :
    ∃ bf cf, tokenize (nul_script lines n) 0 =
      (command_lines lines, .too_long bf cf ((nul_script lines n).length - n)) := by
  have h := tokenize_loop_nul_script n hn lines (nul_script lines n) 0 0
    ((nul_script lines n).length + 1) (fun j _ => by rw [Nat.zero_add]) hok
    (fun _ _ h => h) (by have := nul_script_length_ge lines n; omega)
  rw [Nat.zero_add] at h
  exact h

/-- C20 on the lines `# c` and `A` followed by 8002 NUL bytes. -/
theorem tokenize_nul_script_witness :
    ∃ bf cf, tokenize (nul_script [[35, 32, 99], [65]] 8002) 0 =
      ([[65]], .too_long bf cf ((nul_script [[35, 32, 99], [65]] 8002).length - 8002)) :=
  tokenize_nul_script [[35, 32, 99], [65]] 8002 (by decide) (by decide)

/-! ## The result code of `do_script` -/

/-- The loop of `do_script` on a tokenization that ends with `NULL`: it executes
the yielded lines up to the first failure and returns the last code, or the value
`ret` it was entered with when it executes no line. -/
theorem script_loop_eq_executed (run_command : List Nat → Int) :
    ∀ (f : Nat) (buf : List Nat) (c : Nat) (ret : Int),
      (tokenize_loop f buf c).2.is_null = true →
      script_loop run_command f buf c ret =
        (.returned (match (executed run_command (tokenize_loop f buf c).1).getLast? with
            | none => ret
            | some l => run_command l),
          executed run_command (tokenize_loop f buf c).1) := by
  intro f
  induction f with
  | zero => intro buf c ret h; simp [tokenize_loop, Outcome.is_null] at h
  | succ f ih =>
    intro buf c ret h
    rcases script_next_line_cases buf c with ⟨s, q, i, x, _, _, _, _, _, h6⟩ |
      ⟨_, _, _, _, h6⟩ | ⟨_, _, _, _, _, _, _, _, _, h6⟩ | h6
    · rw [tokenize_loop_succ_line f h6] at h ⊢
      rw [script_loop, h6]
      dsimp only at h ⊢
      by_cases hr : run_command (c_string (buf.set q 0) s) ≠ 0
      · rw [if_pos hr, executed, if_pos hr]
        rfl
      · rw [if_neg hr, executed, if_neg hr, ih _ _ _ h, List.getLast?_cons]
        cases (executed run_command (tokenize_loop f (buf.set q 0) (q + 1)).1).getLast? with
        | none => rfl
        | some l => rfl
    · rw [tokenize_loop_succ_null f (by rw [h6]; simp)]
      rw [script_loop, h6]
      rfl
    · rw [tokenize_loop_succ_null f (by rw [h6]; simp)]
      rw [script_loop, h6]
      rfl
    · rw [tokenize_loop_succ_null f (by rw [h6]; simp), h6] at h
      simp [Outcome.is_null] at h

/-- The last code is non-zero exactly when an executed command failed. -/
theorem last_code_ne_zero_iff (run_command : List Nat → Int) (ls : List (List Nat)) :
    last_code run_command (executed run_command ls) ≠ 0 ↔
      ∃ l ∈ executed run_command ls, run_command l ≠ 0 := by
  induction ls with
  | nil => simp [executed, last_code, CMD_RET_SUCCESS]
  | cons a ls ih =>
    by_cases hr : run_command a ≠ 0
    · rw [executed, if_pos hr]
      simp [last_code, hr]
    · rw [executed, if_neg hr]
      have ha : run_command a = 0 := by simpa using hr
      have hl : last_code run_command (a :: executed run_command ls) =
          last_code run_command (executed run_command ls) := by
        unfold last_code
        rw [List.getLast?_cons]
        cases (executed run_command ls).getLast? with
        | none => simp [ha, CMD_RET_SUCCESS]
        | some l => rfl
      rw [hl, ih]
      simp [ha]

/-- C12: once the checks of `do_script` are passed, when the tokenization of the
scratch buffer ends with a returned `NULL`, be it on the end marker, on a line
that is too long or on a comment that is too long, `do_script` executes the
yielded lines up to the first failure and returns the code of the last executed
command, or `CMD_RET_SUCCESS` when it executes none. The result is a function of
the yielded lines alone, so an overflow is not told apart from the end of the
script, and it is non-zero exactly when an executed command failed. -/
theorem do_script_overflow_code (simple_strtoul : List Nat → Nat) (mem : Nat → Nat)
    (run_command : List Nat → Int) (argc : Int) (argv : Nat → Option (List Nat))
    (arg : List Nat) (hargc : argc = 2) (harg : argv 1 = some arg)
    (haddr : simple_strtoul arg ≠ 0)
    (hnull : (tokenize (memcpy mem (simple_strtoul arg)) 0).2.is_null = true) :
    do_script false simple_strtoul true mem run_command argc argv =
        ⟨.returned (last_code run_command
            (executed run_command (tokenize (memcpy mem (simple_strtoul arg)) 0).1)),
          executed run_command (tokenize (memcpy mem (simple_strtoul arg)) 0).1, true⟩ ∧
      (last_code run_command
          (executed run_command (tokenize (memcpy mem (simple_strtoul arg)) 0).1) ≠ 0 ↔
        ∃ l ∈ executed run_command (tokenize (memcpy mem (simple_strtoul arg)) 0).1,
          run_command l ≠ 0) ∧
      ∀ mem2 : Nat → Nat,
        (tokenize (memcpy mem2 (simple_strtoul arg)) 0).2.is_null = true →
        (tokenize (memcpy mem2 (simple_strtoul arg)) 0).1 =
          (tokenize (memcpy mem (simple_strtoul arg)) 0).1 →
        do_script false simple_strtoul true mem2 run_command argc argv =
          do_script false simple_strtoul true mem run_command argc argv := by
  have key : ∀ m : Nat → Nat, (tokenize (memcpy m (simple_strtoul arg)) 0).2.is_null = true →
      do_script false simple_strtoul true m run_command argc argv =
        ⟨.returned (last_code run_command
            (executed run_command (tokenize (memcpy m (simple_strtoul arg)) 0).1)),
          executed run_command (tokenize (memcpy m (simple_strtoul arg)) 0).1, true⟩ := by
    intro m hm
    unfold tokenize at hm ⊢
    unfold last_code CMD_RET_SUCCESS
    rw [do_script_eq_loop simple_strtoul m run_command argc argv arg hargc harg haddr,
      script_loop_eq_executed run_command _ _ _ _ hm]
  refine ⟨key mem hnull, last_code_ne_zero_iff run_command _, ?_⟩
  intro mem2 h2 heq
  rw [key mem2 h2, key mem hnull, heq]

theorem nul_mem_buffer (j : Nat)
    (hj : j < (nul_script [[65]] (SCRIPT_FILE_MAX_SIZE - 2)).length) :
    (memcpy nul_mem 1)[0 + j]? = (nul_script [[65]] (SCRIPT_FILE_MAX_SIZE - 2))[j]? := by
  have hlen : (nul_script [[65]] (SCRIPT_FILE_MAX_SIZE - 2)).length =
      SCRIPT_FILE_MAX_SIZE := by
    have h0 : ∀ n, (nul_script [] n).length = n := fun n => by
      rw [nul_script, List.length_replicate]
    have h2 : 2 ≤ SCRIPT_FILE_MAX_SIZE := by decide
    rw [nul_script_length_cons, h0, List.length_singleton]
    omega
  rw [hlen] at hj
  rw [Nat.zero_add, memcpy_getElem? _ _ _ hj]
  have hns : ∀ n, nul_script [[65]] n = 65 :: 10 :: List.replicate n 0 := fun n => by
    rw [nul_script, nul_script, List.singleton_append]
  rw [hns]
  match j, hj with
  | 0, _ => simp [nul_mem]
  | 1, _ => simp [nul_mem]
  | j + 2, hj =>
    have hj2 : j < SCRIPT_FILE_MAX_SIZE - 2 := by omega
    rw [List.getElem?_cons_succ, List.getElem?_cons_succ,
      List.getElem?_replicate, if_pos hj2]
    have h1 : ¬ (1 + (j + 2) = 1) := by omega
    have h2 : ¬ (1 + (j + 2) = 2) := by omega
    simp only [nul_mem, h1, h2, if_false]

/-- The scratch buffer read from `nul_mem` yields the line `A` and is then cut by
the line overflow. -/
theorem tokenize_memcpy_nul_mem :
    ∃ bf cf s, tokenize (memcpy nul_mem 1) 0 = ([[65]], .too_long bf cf s) := by
  obtain ⟨bf, cf, h⟩ := tokenize_loop_nul_script (SCRIPT_FILE_MAX_SIZE - 2) (by decide)
    [[65]] (memcpy nul_mem 1) 0 0 ((memcpy nul_mem 1).length + 1) nul_mem_buffer
    (by decide) (fun _ _ h => h) (by rw [memcpy_length]; decide)
  exact ⟨bf, cf, _, h⟩

/-- C12 on a zeroed memory that holds the line `A` and no end marker: the line is
executed, the line overflow ends the script, and `do_script` returns
`CMD_RET_SUCCESS`. -/
theorem do_script_overflow_code_witness :
    do_script false (fun _ => 1) true nul_mem (fun _ => 0) 2 (fun _ => some [49]) =
      ⟨.returned CMD_RET_SUCCESS, [[65]], true⟩ := by
  obtain ⟨bf, cf, s, htok⟩ := tokenize_memcpy_nul_mem
  have h := (do_script_overflow_code (fun _ => 1) nul_mem (fun _ => 0) 2
    (fun _ => some [49]) [49] rfl rfl (by decide) (by rw [htok]; rfl)).1
  rw [htok] at h
  exact h

/-! ## The pure tokenizer -/

/-- The skip loop of `script_next_line` is the pure skip loop followed by the
write of the end marker on an overflow. -/
theorem skip_loop_eq_pure :
    ∀ (f : Nat) (buf : List Nat) (p : Nat),
      skip_loop f buf p =
        match pure_skip_loop f buf p with
        | .stop k => .stop buf k
        | .overflow k => .stop (buf.set k SCRIPT_FILE_END) k
        | .fault => .fault
        | .timeout => .timeout := by
  intro f
  induction f with
  | zero => intro buf p; rfl
  | succ f ih =>
    intro buf p
    unfold skip_loop pure_skip_loop
    cases hb : buf[p]? with
    | none => rfl
    | some c =>
      dsimp only
      cases hl : IS_LINE_END c with
      | true =>
        simp only [if_true]
        exact ih buf (p + 1)
      | false =>
        simp only [Bool.false_eq_true, if_false]
        cases hcm : IS_COMMENT c with
        | false => simp
        | true =>
          simp only [if_true]
          cases hs : scan_loop buf (MAX_LINE_SIZE + 2) p 0 with
          | fault => rfl
          | timeout => rfl
          | stop q i =>
            dsimp only
            have hss := (scan_loop_iff buf p q i).1 hs
            by_cases hi : i > MAX_LINE_SIZE
            · rw [if_pos hi, if_pos hi, write_eq_some hss.scan_lt_length]
            · rw [if_neg hi, if_neg hi]
              exact ih buf q

/-- A step of the pure tokenizer is a call of `script_next_line` whose buffer is
dropped. -/
theorem pure_next_line_eq (buf : List Nat) (c : Nat) :
    pure_next_line buf c =
      match script_next_line buf c with
      | .line _ c1 s => .span s (c1 - 1 - s) c1
      | .file_end _ _ _ => .done
      | .too_long _ _ _ => .done
      | .fault => .fault
      | .timeout => .timeout := by
  unfold pure_next_line script_next_line
  rw [skip_loop_eq_pure]
  cases hp : pure_skip_loop (buf.length + 1) buf c with
  | fault => rfl
  | timeout => rfl
  | overflow k =>
    dsimp only
    have hk : k < buf.length := by
      have h := skip_loop_eq_pure (buf.length + 1) buf c
      rw [hp] at h
      obtain ⟨o, ho, _⟩ := (skip_loop_iff buf _ c k).1 h
      exact ho.lt_length
    rw [getElem?_set_file_end hk]
    simp [IS_FILE_END_file_end]
  | stop k =>
    dsimp only
    cases hb : buf[k]? with
    | none => rfl
    | some x =>
      dsimp only
      cases hfe : IS_FILE_END x with
      | true => simp
      | false =>
        simp only [Bool.false_eq_true, if_false]
        cases hs : scan_loop buf (MAX_LINE_SIZE + 2) k 0 with
        | fault => rfl
        | timeout => rfl
        | stop q i =>
          dsimp only
          have hss := (scan_loop_iff buf k q i).1 hs
          by_cases hi : i > MAX_LINE_SIZE
          · rw [if_pos hi, if_pos hi]
          · rw [if_neg hi, if_neg hi, write_eq_some hss.scan_lt_length]
            dsimp only
            rw [Nat.add_sub_cancel]

/-- A call that yields a line yields the same span on every buffer that agrees
from the cursor on. -/
theorem script_next_line_line_agree {buf buf2 b1 : List Nat} {c c1 s : Nat}
    (hag : ∀ x, c ≤ x → buf2[x]? = buf[x]?)
    (h : script_next_line buf c = .line b1 c1 s) :
    script_next_line buf2 c = .line (buf2.set (c1 - 1) 0) c1 s := by
  obtain ⟨q, i, x, rfl, rfl, hs, hx, hfe, hsc, hi⟩ := script_next_line_line_inv h
  have hcs := hs.le
  have hx2 : buf2[s]? = some x := (hag s hcs).trans hx
  have hs2 : SkipsTo buf2 c s false :=
    hs.agree buf2 (fun y hy1 _ => hag y hy1) (fun _ => hag s hcs) (lt_length_of_getElem? hx2)
  have hsc2 : ScanStops buf2 s 0 q i := hsc.scan_agree (fun y hy1 _ => hag y (by omega))
  rw [Nat.add_sub_cancel]
  exact script_next_line_line hs2 hx2 hfe hsc2 hi

theorem yielded_spans_eq_pure_spans :
    ∀ (f : Nat) (buf0 buf : List Nat) (c : Nat), (∀ x, c ≤ x → buf[x]? = buf0[x]?) →
      yielded_spans f buf c = pure_spans f buf0 c := by
  intro f
  induction f with
  | zero => intro buf0 buf c _; rfl
  | succ f ih =>
    intro buf0 buf c hag
    rw [yielded_spans, pure_spans, pure_next_line_eq]
    cases h : script_next_line buf c with
    | line b1 c1 s =>
      have h0 := script_next_line_line_agree (fun x hx => (hag x hx).symm) h
      rw [h0]
      dsimp only
      obtain ⟨q, i, x, rfl, rfl, hs, hx, hfe, hsc, hi⟩ := script_next_line_line_inv h
      rw [ih buf0 (buf.set q 0) (q + 1)
        (fun y hy => by rw [List.getElem?_set_ne (by omega)]; exact hag y (by
          have := hs.le
          have := hsc.1
          omega))]
    | file_end b1 c1 k =>
      dsimp only
      cases h0 : script_next_line buf0 c with
      | line b2 c2 s2 =>
        rw [script_next_line_line_agree hag h0] at h
        cases h
      | file_end _ _ _ => rfl
      | too_long _ _ _ => rfl
      | fault => rfl
      | timeout => rfl
    | too_long b1 c1 k =>
      dsimp only
      cases h0 : script_next_line buf0 c with
      | line b2 c2 s2 =>
        rw [script_next_line_line_agree hag h0] at h
        cases h
      | file_end _ _ _ => rfl
      | too_long _ _ _ => rfl
      | fault => rfl
      | timeout => rfl
    | fault =>
      dsimp only
      cases h0 : script_next_line buf0 c with
      | line b2 c2 s2 =>
        rw [script_next_line_line_agree hag h0] at h
        cases h
      | file_end _ _ _ => rfl
      | too_long _ _ _ => rfl
      | fault => rfl
      | timeout => rfl
    | timeout => exact absurd h (script_next_line_ne_timeout buf c)

/-- C19: the spans (start, length) of the lines yielded by repeated calls of
`script_next_line`, each on the buffer mutated by the calls before, are the
spans computed by the pure tokenizer on the original buffer, from every cursor
and with every fuel. -/
theorem mutation_unobservable (buf : List Nat) (cur f : Nat) :
    yielded_spans f buf cur = pure_spans f buf cur ∧
      yielded_spans (buf.length + 1) buf 0 = pure_spans (buf.length + 1) buf 0 :=
  ⟨yielded_spans_eq_pure_spans f buf buf cur (fun _ _ => rfl),
    yielded_spans_eq_pure_spans _ buf buf 0 (fun _ _ => rfl)⟩

/-! ## The fetchers -/

/-- C16: in each fetcher, once the scratch buffer is acquired, the command lines
run are the ones before the load, the load command, and then the command
`script <addr>` exactly when the load command returned 0; the fetcher returns the
code of the load command when it is non-zero, and the code of the script command
otherwise. -/
theorem fetchers_run_script_iff_loaded :
    (∀ (cfg : Bool) (PART_TYPE_DOS : Nat) ( mmc_initialize : Int) (desc : blk_desc)
        (buf : Nat) (run_command : List Nat → Int),
        (cfg = true → mmc_initialize = 0) →
        (do_sd_update cfg PART_TYPE_DOS mmc_initialize (some desc) (some buf)
            run_command).commands =
          sd_load_cmd buf ::
            (if run_command (sd_load_cmd buf) = 0 then [script_cmd buf] else []) ∧
        (do_sd_update cfg PART_TYPE_DOS mmc_initialize (some desc) (some buf)
            run_command).ret =
          (if run_command (sd_load_cmd buf) ≠ 0 then run_command (sd_load_cmd buf)
            else run_command (script_cmd buf))) ∧
    (∀ (DEV_TYPE_UNKNOWN PART_TYPE_DOS : Nat) (devices : List blk_desc)
        (blk_get_devnum_by_type : Int → Option blk_desc) (desc : blk_desc) (buf : Nat)
        (run_command : List Nat → Int),
        run_command (str "usb reset") = 0 →
        0 ≤ find_udisk DEV_TYPE_UNKNOWN devices →
        blk_get_devnum_by_type (find_udisk DEV_TYPE_UNKNOWN devices) = some desc →
        (do_usb_update DEV_TYPE_UNKNOWN PART_TYPE_DOS devices blk_get_devnum_by_type
            (some buf) run_command).commands =
          str "usb reset" :: usb_load_cmd (find_udisk DEV_TYPE_UNKNOWN devices) buf ::
            (if run_command (usb_load_cmd (find_udisk DEV_TYPE_UNKNOWN devices) buf) = 0
              then [script_cmd buf] else []) ∧
        (do_usb_update DEV_TYPE_UNKNOWN PART_TYPE_DOS devices blk_get_devnum_by_type
            (some buf) run_command).ret =
          (if run_command (usb_load_cmd (find_udisk DEV_TYPE_UNKNOWN devices) buf) ≠ 0
            then run_command (usb_load_cmd (find_udisk DEV_TYPE_UNKNOWN devices) buf)
            else run_command (script_cmd buf))) ∧
    (∀ (argc : Int) (argv : Nat → Option (List Nat)) (buf : Nat)
        (run_command : List Nat → Int),
        (do_tftp_update argc argv (some buf) run_command).commands =
          (if decide (argc > 1) && (argv 1 == some (str "-d")) then [str "dhcp"] else []) ++
            tftp_load_cmd buf ::
              (if run_command (tftp_load_cmd buf) = 0 then [script_cmd buf] else []) ∧
        (do_tftp_update argc argv (some buf) run_command).ret =
          (if run_command (tftp_load_cmd buf) ≠ 0 then run_command (tftp_load_cmd buf)
            else run_command (script_cmd buf))) := by
  refine ⟨?_, ?_, ?_⟩
  · intro cfg ptd init desc buf run hinit
    have hgate : (cfg && decide (init ≠ 0)) = false := by
      cases cfg with
      | false => rfl
      | true => simp [hinit rfl]
    unfold do_sd_update
    rw [hgate]
    by_cases hr : run (sd_load_cmd buf) = 0
    · simp [hr]
    · simp [hr]
  · intro dtu ptd devices get desc buf run hreset hfound hdesc
    unfold do_usb_update
    rw [if_neg (by simp [hreset])]
    dsimp only
    rw [if_neg (by omega), hdesc]
    by_cases hr : run (usb_load_cmd (find_udisk dtu devices) buf) = 0
    · simp [hr]
    · simp [hr]
  · intro argc argv buf run
    unfold do_tftp_update
    by_cases hr : run (tftp_load_cmd buf) = 0
    · simp [hr]
    · simp [hr]

/-- C16 on a run of `do_sd_update` where both commands succeed and on a run of
`do_tftp_update -d` where the load command fails with code 3. -/
theorem fetchers_run_script_iff_loaded_witness :
    ((do_sd_update true 2 0 (some ⟨0, 8, 512, 1, 0⟩) (some 4096) (fun _ => 0)).commands =
        [sd_load_cmd 4096, script_cmd 4096] ∧
      (do_sd_update true 2 0 (some ⟨0, 8, 512, 1, 0⟩) (some 4096) (fun _ => 0)).ret = 0) ∧
    ((do_tftp_update 2 (fun _ => some (str "-d")) (some 4096) (fun _ => 3)).commands =
        [str "dhcp", tftp_load_cmd 4096] ∧
      (do_tftp_update 2 (fun _ => some (str "-d")) (some 4096) (fun _ => 3)).ret = 3) :=
  ⟨fetchers_run_script_iff_loaded.1 true 2 0 ⟨0, 8, 512, 1, 0⟩ 4096 (fun _ => 0) (fun _ => rfl),
    fetchers_run_script_iff_loaded.2.2 2 (fun _ => some (str "-d")) 4096 (fun _ => 3)⟩

/-! ## The scratch buffer of `do_script`, terminated -/

/-- C8, amended: when the scratch buffer of `SCRIPT_FILE_MAX_SIZE` bytes holds an
end marker at an index `k` that is 0 or directly follows a line terminator, then
in the calls of `script_next_line` made by `do_script` from cursor 0 the cursor
stays at or before `k`, so at most `SCRIPT_FILE_MAX_SIZE`, no access falls
outside the buffer, and `do_script` returns. -/
theorem do_script_stays_in_buffer (simple_strtoul : List Nat → Nat) (mem : Nat → Nat)
    (run_command : List Nat → Int) (argc : Int) (argv : Nat → Option (List Nat))
    (arg : List Nat) (hargc : argc = 2) (harg : argv 1 = some arg)
    (haddr : simple_strtoul arg ≠ 0) (k : Nat)
    (hterm : Terminated (memcpy mem (simple_strtoul arg)) 0 k) :
    (∀ c ∈ script_cursors run_command (SCRIPT_FILE_MAX_SIZE + 1)
        (memcpy mem (simple_strtoul arg)) 0, c ≤ k ∧ c ≤ SCRIPT_FILE_MAX_SIZE) ∧
      k < SCRIPT_FILE_MAX_SIZE ∧
      ∃ ret, (do_script false simple_strtoul true mem run_command argc argv).status =
        .returned ret := by
  have hk : k < SCRIPT_FILE_MAX_SIZE := by
    have := lt_length_of_getElem? hterm.2.1
    rwa [memcpy_length] at this
  refine ⟨?_, hk, ?_⟩
  · intro c hc
    have := script_cursors_le_of_terminated run_command _ _ _ hterm c hc
    exact ⟨this, by omega⟩
  · rw [do_script_status_eq_loop simple_strtoul mem run_command argc argv arg hargc harg haddr]
    exact script_loop_of_terminated run_command _ _ _ _ hterm
      (by rw [memcpy_length]; omega)

/-- C8, amended, on the script `A`, whose end marker is at index 2. -/
theorem do_script_stays_in_buffer_witness :
    (∀ c ∈ script_cursors (fun _ => 0) (SCRIPT_FILE_MAX_SIZE + 1)
        (memcpy (mem_of [65, 10, 37] 1) 1) 0, c ≤ 2 ∧ c ≤ SCRIPT_FILE_MAX_SIZE) ∧
      2 < SCRIPT_FILE_MAX_SIZE ∧
      ∃ ret, (do_script false (fun _ => 1) true (mem_of [65, 10, 37] 1) (fun _ => 0) 2
        (fun _ => some [49])).status = .returned ret :=
  do_script_stays_in_buffer (fun _ => 1) (mem_of [65, 10, 37] 1) (fun _ => 0) 2
    (fun _ => some [49]) [49] rfl rfl (by decide) 2
    ⟨Nat.zero_le _,
      (memcpy_mem_of_getElem? [65, 10, 37] 1 2 (by decide) (by decide)).trans rfl,
      fun _ => ⟨10,
        (memcpy_mem_of_getElem? [65, 10, 37] 1 1 (by decide) (by decide)).trans rfl,
        by decide⟩⟩

end ScriptUpdate
